import Mathlib

/-!
# Proof-of-work package `work`

A shallow embedding of `work.go` (functions `Difficulty`, `Verify`, `Generate`).

* Bytes, `uint64` values and `int` values are natural numbers / integers; every place where
  the Go code truncates to a machine width carries an explicit `%`.
* Operations that can panic in Go (slice expressions, index checks, `make` of a channel,
  `sync.WaitGroup.Add`) return `Option` or lead to the state `panicked`; memory is not bounded
  otherwise.
* `Generate` starts goroutines; it is embedded as a transition system: a state holds the
  program counter of the calling goroutine, the state of every started worker, the content
  of the `result` channel, whether `done` is closed and the 32-bit `WaitGroup` counter; an
  `Action` names the goroutine that performs its next atomic step. The statements before the
  loop are `setup`: `make(chan uint64, workers-1)` panics when the channel is too large, and
  `wg.Add(workers)` keeps only the low 32 bits of the worker count and panics when they are
  negative as an `int32`.
-/

namespace Work

/-! ## `crypto/sha256` (FIPS 180-4) -/

/-- Round constants of SHA-256. -/
def sha256K : List Nat :=
  [0x428a2f98, 0x71374491, 0xb5c0fbcf, 0xe9b5dba5, 0x3956c25b, 0x59f111f1, 0x923f82a4, 0xab1c5ed5,
   0xd807aa98, 0x12835b01, 0x243185be, 0x550c7dc3, 0x72be5d74, 0x80deb1fe, 0x9bdc06a7, 0xc19bf174,
   0xe49b69c1, 0xefbe4786, 0x0fc19dc6, 0x240ca1cc, 0x2de92c6f, 0x4a7484aa, 0x5cb0a9dc, 0x76f988da,
   0x983e5152, 0xa831c66d, 0xb00327c8, 0xbf597fc7, 0xc6e00bf3, 0xd5a79147, 0x06ca6351, 0x14292967,
   0x27b70a85, 0x2e1b2138, 0x4d2c6dfc, 0x53380d13, 0x650a7354, 0x766a0abb, 0x81c2c92e, 0x92722c85,
   0xa2bfe8a1, 0xa81a664b, 0xc24b8b70, 0xc76c51a3, 0xd192e819, 0xd6990624, 0xf40e3585, 0x106aa070,
   0x19a4c116, 0x1e376c08, 0x2748774c, 0x34b0bcb5, 0x391c0cb3, 0x4ed8aa4a, 0x5b9cca4f, 0x682e6ff3,
   0x748f82ee, 0x78a5636f, 0x84c87814, 0x8cc70208, 0x90befffa, 0xa4506ceb, 0xbef9a3f7, 0xc67178f2]

/-- Initial chaining value of SHA-256. -/
def sha256Init : List Nat :=
  [0x6a09e667, 0xbb67ae85, 0x3c6ef372, 0xa54ff53a, 0x510e527f, 0x9b05688c, 0x1f83d9ab, 0x5be0cd19]

/-- Rotate a 32-bit word right by `n` bits. -/
def rotr32 (x n : Nat) : Nat := ((x >>> n) ||| (x <<< (32 - n))) % 2 ^ 32

def bsig0 (x : Nat) : Nat := rotr32 x 2 ^^^ rotr32 x 13 ^^^ rotr32 x 22

def bsig1 (x : Nat) : Nat := rotr32 x 6 ^^^ rotr32 x 11 ^^^ rotr32 x 25

def ssig0 (x : Nat) : Nat := rotr32 x 7 ^^^ rotr32 x 18 ^^^ (x >>> 3)

def ssig1 (x : Nat) : Nat := rotr32 x 17 ^^^ rotr32 x 19 ^^^ (x >>> 10)

def ch (x y z : Nat) : Nat := (x &&& y) ^^^ ((x ^^^ 0xffffffff) &&& z)

def maj (x y z : Nat) : Nat := (x &&& y) ^^^ (x &&& z) ^^^ (y &&& z)

/-- Big-endian 32-bit words of a byte string whose length is a multiple of four. -/
def beWords : List Nat → List Nat
  | b0 :: b1 :: b2 :: b3 :: rest => (b0 * 2 ^ 24 + b1 * 2 ^ 16 + b2 * 2 ^ 8 + b3) :: beWords rest
  | _ => []

/-- Message schedule: from a window `w` of the last sixteen words, the next `n` words. -/
def schedule : Nat → List Nat → List Nat → List Nat
  | 0, _, acc => acc.reverse
  | n + 1, w, acc =>
    let x := (ssig1 (w.getD 14 0) + w.getD 9 0 + ssig0 (w.getD 1 0) + w.getD 0 0) % 2 ^ 32
    schedule n (w.drop 1 ++ [x]) (x :: acc)

/-- One round of the compression function on the working variables `a .. h`. -/
def sha256Round (s : List Nat) (kw : Nat × Nat) : List Nat :=
  match s with
  | [a, b, c, d, e, f, g, h] =>
    let t1 := (h + bsig1 e + ch e f g + kw.1 + kw.2) % 2 ^ 32
    let t2 := (bsig0 a + maj a b c) % 2 ^ 32
    [(t1 + t2) % 2 ^ 32, a, b, c, (d + t1) % 2 ^ 32, e, f, g]
  | _ => s

/-- Compression of one 64-byte block into the chaining value `h`. -/
def sha256Block (h : List Nat) (block : List Nat) : List Nat :=
  let w := beWords block
  let ws := w ++ schedule 48 w []
  let s := (sha256K.zip ws).foldl sha256Round h
  List.zipWith (fun x y => (x + y) % 2 ^ 32) h s

/-- Eight bytes of a 64-bit value, most significant first. -/
def be64 (v : Nat) : List Nat :=
  [(v >>> 56) % 256, (v >>> 48) % 256, (v >>> 40) % 256, (v >>> 32) % 256,
   (v >>> 24) % 256, (v >>> 16) % 256, (v >>> 8) % 256, v % 256]

/-- Padding: the byte 0x80, zero bytes up to 56 modulo 64, the bit length on eight bytes. -/
def sha256Pad (msg : List Nat) : List Nat :=
  msg ++ [0x80] ++ List.replicate ((119 - msg.length % 64) % 64) 0 ++ be64 (8 * msg.length)

/-- Fold the compression function over `n` consecutive 64-byte blocks of `m`. -/
def sha256Blocks : Nat → List Nat → List Nat → List Nat
  | 0, h, _ => h
  | n + 1, h, m => sha256Blocks n (sha256Block h (m.take 64)) (m.drop 64)

/-- Four bytes of a 32-bit word, most significant first. -/
def wordBytes (w : Nat) : List Nat :=
  [(w >>> 24) % 256, (w >>> 16) % 256, (w >>> 8) % 256, w % 256]

/-- The function `sha256.Sum256`: the 32-byte digest of `msg`. -/
def Sum256 (msg : List Nat) : List Nat :=
  let m := sha256Pad msg
  (sha256Blocks (m.length / 64) sha256Init m).flatMap wordBytes

/-! ## `encoding/binary`, slices -/

/-- The constant `math.MaxUint64`. -/
def maxUint64 : Nat := 2 ^ 64 - 1

/-- The largest value of Go's `int` on a 64-bit platform. -/
def maxInt : Int := 2 ^ 63 - 1

/-- The call `make([]byte, n)`: `n` zero bytes. -/
def make (n : Nat) : List Nat := List.replicate n 0

/-- The builtin `copy(dst, src)`: the first `min (len dst) (len src)` bytes of `dst` are
overwritten with those of `src`. -/
def copy (dst src : List Nat) : List Nat := src.take dst.length ++ dst.drop src.length

/-- The slice expression `b[lo:]`; it panics (`none`) when `lo > len(b)`. -/
def sliceFrom (b : List Nat) (lo : Nat) : Option (List Nat) :=
  if lo ≤ b.length then some (b.drop lo) else none

/-- The method `binary.BigEndian.PutUint64(b, v)`: the first eight bytes of `b` are
overwritten; it panics (`none`) when `len(b) < 8`. -/
def PutUint64 (b : List Nat) (v : Nat) : Option (List Nat) :=
  if 8 ≤ b.length then some (be64 v ++ b.drop 8) else none

/-- The method `binary.BigEndian.Uint64(b)`; it panics (`none`) when `len(b) < 8`. -/
def Uint64 : List Nat → Option Nat
  | b0 :: b1 :: b2 :: b3 :: b4 :: b5 :: b6 :: b7 :: _ =>
    some ((b7 ||| b6 <<< 8 ||| b5 <<< 16 ||| b4 <<< 24 ||| b3 <<< 32 ||| b2 <<< 40 |||
      b1 <<< 48 ||| b0 <<< 56) % 2 ^ 64)
  | _ => none

/-! ## `Difficulty` and `Verify` -/

/-- The three statements shared by `Difficulty` and by the body of the search loop:
`binary.BigEndian.PutUint64(buf[len(data):], nonce)`, `hash := sha256.Sum256(buf)` and
`binary.BigEndian.Uint64(hash[:])`. The slice aliases `buf`, so the write changes `buf`;
the result is the buffer after the write together with the value read from the digest. -/
def hashNonce (buf : List Nat) (off nonce : Nat) : Option (List Nat × Nat) := do
  let tl ← sliceFrom buf off
  let tl ← PutUint64 tl nonce
  let buf := buf.take off ++ tl
  let hash := Sum256 buf
  let value ← Uint64 hash
  pure (buf, value)

/-- The function `Difficulty(data, nonce)`. -/
def Difficulty (data : List Nat) (nonce : Nat) : Option Nat := do
  let buf := make (data.length + 8)
  let buf := copy buf data
  let r ← hashNonce buf data.length nonce
  pure r.2

/-- The function `Verify(data, difficulty, nonce)`. -/
def Verify (data : List Nat) (difficulty nonce : Nat) : Option Bool := do
  let v ← Difficulty data nonce
  pure (decide (v ≥ difficulty))

/-- The mapped value in the words of the specification: the first eight bytes of the
SHA-256 digest of payload followed by the nonce on eight big-endian bytes, read as a
big-endian number. -/
def mappedValue (payload : List Nat) (nonce : Nat) : Nat :=
  (((Sum256 (payload ++ be64 nonce)).take 8).foldl (fun acc b => acc * 256 + b) 0)

/-! ## `Generate` -/

/-- The largest value of a 32-bit signed integer. -/
def maxInt32 : Int := 2 ^ 31 - 1

/-- The conversion `int32(x)`: the low 32 bits of `x` read in two's complement. -/
def toInt32 (x : Int) : Int := (x + 2 ^ 31) % 2 ^ 32 - 2 ^ 31

/-- The constant `runtime.maxAlloc` on 64-bit platforms with a 48-bit address space. -/
def maxAlloc : Int := 2 ^ 48

/-- The constant `runtime.hchanSize`, the size of a channel header. -/
def hchanSize : Int := 96

/-- The call `make(chan uint64, size)`: the capacity of the new channel. The runtime panics
(`none`) when `size` is negative or when the buffer of `8 * size` bytes exceeds
`maxAlloc - hchanSize`. -/
def makeChan (size : Int) : Option Nat :=
  if 0 ≤ size ∧ 8 * size ≤ maxAlloc - hchanSize then some size.toNat else none

/-- The counter of a `sync.WaitGroup` after `Add(delta)` on counter `c`: the counter is kept
on 32 bits, `v := int32(state >> 32)`. The method panics when the result is negative. -/
def wgAdd (c delta : Int) : Int := toInt32 (c + delta)

/-- The worker count after the sanity check `if workers < 1 { workers = 1 }`. -/
def clampWorkers (workers : Int) : Int := if workers < 1 then 1 else workers

/-- The statement `delta := math.MaxUint64 / uint64(workers)` (after the sanity check). -/
def delta (workers : Int) : Nat := maxUint64 / ((clampWorkers workers).toNat % 2 ^ 64)

/-- The statement `start := uint64(i) * delta`, in `uint64` arithmetic. -/
def rangeStart (workers : Int) (i : Nat) : Nat := (i % 2 ^ 64 * delta workers) % 2 ^ 64

/-- The statement `end := start + delta`, in `uint64` arithmetic. -/
def rangeEnd (workers : Int) (i : Nat) : Nat := (rangeStart workers i + delta workers) % 2 ^ 64

/-- Control state of one worker goroutine. -/
inductive Worker where
  /-- At the head of `for nonce := start; nonce < end; nonce++`, with the current `nonce`,
  the bound `end` and the scratch buffer `buf`. -/
  | running (nonce stop : Nat) (buf : List Nat)
  /-- At the send `result <- nonce`. -/
  | sending (nonce : Nat)
  /-- Left the loop (by `return` or by `nonce >= end`); the deferred `wg.Done()` is next. -/
  | finishing
  /-- The goroutine has ended. -/
  | exited
  /-- A run-time panic occurred in the goroutine (in the loop body, or in the deferred
  `wg.Done()` when the counter of the wait group becomes negative). -/
  | panicked
deriving DecidableEq

/-- Control state of the goroutine that called `Generate`. -/
inductive Main where
  /-- In `for i := 0; i < workers; i++`, before the test, with the current `i`. -/
  | spawning (i : Nat)
  /-- At the receive `nonce := <-result`. -/
  | receiving
  /-- At `close(done)`, holding the received `nonce`. -/
  | closing (nonce : Nat)
  /-- At `wg.Wait()`. -/
  | waiting (nonce : Nat)
  /-- After `return nonce`. -/
  | returned (nonce : Nat)
deriving DecidableEq

/-- Shared state of one call of `Generate`. -/
structure State where
  /-- Program counter of the caller. -/
  main : Main
  /-- The goroutines started so far, in the order of the loop index. -/
  workers : List Worker
  /-- Values buffered in the channel `result`, oldest first. -/
  result : List Nat
  /-- Whether the channel `done` has been closed. -/
  done : Bool
  /-- Counter of the `sync.WaitGroup`. -/
  wg : Int
deriving DecidableEq

/-- The goroutine that performs the next atomic step. -/
inductive Action where
  | main
  | worker (i : Nat)
deriving DecidableEq

/-- State after `result := make(chan uint64, workers-1)`, `done := make(chan struct{})` and
`wg.Add(workers)`, when none of them panics (see `setup`). -/
def start (workers : Int) : State :=
  State.mk (Main.spawning 0) [] [] false (wgAdd 0 (clampWorkers workers))

/-- The statements before the loop: `make(chan uint64, workers-1)` panics when the channel is
too large, and `wg.Add(workers)` panics when the 32-bit counter becomes negative; `none`
stands for a panic. -/
def setup (workers : Int) : Option State :=
  match makeChan (clampWorkers workers - 1) with
  | none => none
  | some _ => if wgAdd 0 (clampWorkers workers) < 0 then none else some (start workers)

/-- One step of the caller. `none` means that the caller is blocked or has returned.

* loop: when `i < workers`, the goroutine `i` is started with its `start` and `end`; its
  first statements `buf := make([]byte, len(data)+8)` and `copy(buf, data)` touch only the
  goroutine's own buffer and are performed here;
* receive: the oldest buffered value is taken (a value handed over by a sender that finds the
  caller waiting is a step of that sender);
* `close(done)`; `wg.Wait()` proceeds when the counter is zero. -/
def stepMain (data : List Nat) (workers : Int) (s : State) : Option State :=
  match s.main with
  | Main.spawning i =>
    if (i : Int) < clampWorkers workers then
      some (State.mk (Main.spawning (i + 1))
        (s.workers ++ [Worker.running (rangeStart workers i) (rangeEnd workers i)
          (copy (make (data.length + 8)) data)])
        s.result s.done s.wg)
    else some (State.mk Main.receiving s.workers s.result s.done s.wg)
  | Main.receiving =>
    match s.result with
    | n :: rest => some (State.mk (Main.closing n) s.workers rest s.done s.wg)
    | [] => none
  | Main.closing n => some (State.mk (Main.waiting n) s.workers s.result true s.wg)
  | Main.waiting n =>
    if s.wg = 0 then some (State.mk (Main.returned n) s.workers s.result s.done s.wg) else none
  | Main.returned _ => none

/-- One step of worker `i`. `none` means that the worker does not exist, is blocked on its
send, or has ended.

* loop head: when `nonce < end` fails the goroutine leaves the loop; otherwise the `select`
  returns when `done` is closed, and else the nonce is written into the buffer, hashed and
  compared with `difficulty`;
* send: the value is handed to the caller when the caller waits at its receive and the buffer
  is empty, it is buffered when the buffer (capacity `workers-1`) has room, and the send
  blocks otherwise;
* the deferred `wg.Done()`, which is `wg.Add(-1)`, decrements the 32-bit counter and panics
  when it becomes negative. -/
def stepWorker (data : List Nat) (difficulty : Nat) (workers : Int) (s : State) (i : Nat) :
    Option State :=
  match s.workers[i]? with
  | some (Worker.running nonce stop buf) =>
    if nonce < stop then
      if s.done then
        some (State.mk s.main (s.workers.set i Worker.finishing) s.result s.done s.wg)
      else
        match hashNonce buf data.length nonce with
        | none => some (State.mk s.main (s.workers.set i Worker.panicked) s.result s.done s.wg)
        | some (buf, value) =>
          if value ≥ difficulty then
            some (State.mk s.main (s.workers.set i (Worker.sending nonce)) s.result s.done s.wg)
          else
            some (State.mk s.main
              (s.workers.set i (Worker.running ((nonce + 1) % 2 ^ 64) stop buf))
              s.result s.done s.wg)
    else some (State.mk s.main (s.workers.set i Worker.finishing) s.result s.done s.wg)
  | some (Worker.sending nonce) =>
    if s.main = Main.receiving ∧ s.result = [] then
      some (State.mk (Main.closing nonce) (s.workers.set i Worker.finishing) s.result s.done s.wg)
    else if s.result.length < (clampWorkers workers - 1).toNat then
      some (State.mk s.main (s.workers.set i Worker.finishing) (s.result ++ [nonce]) s.done s.wg)
    else none
  | some Worker.finishing =>
    if wgAdd s.wg (-1) < 0 then
      some (State.mk s.main (s.workers.set i Worker.panicked) s.result s.done
        (wgAdd s.wg (-1)))
    else
      some (State.mk s.main (s.workers.set i Worker.exited) s.result s.done (wgAdd s.wg (-1)))
  | _ => none

/-- One atomic step of the goroutine named by the action. -/
def step (data : List Nat) (difficulty : Nat) (workers : Int) (s : State) : Action → Option State
  | Action.main => stepMain data workers s
  | Action.worker i => stepWorker data difficulty workers s i

/-- Execution of a schedule (a list of actions) from a state; `none` when the schedule asks
a blocked or ended goroutine to step. -/
def run (data : List Nat) (difficulty : Nat) (workers : Int) : State → List Action → Option State
  | s, [] => some s
  | s, a :: rest =>
    match step data difficulty workers s a with
    | none => none
    | some t => run data difficulty workers t rest

/-- The call `Generate(data, difficulty, workers)` executed under a schedule; `none` when
the statements before the loop panic or when the schedule asks a blocked or ended goroutine
to step. -/
def Generate (data : List Nat) (difficulty : Nat) (workers : Int) (sched : List Action) :
    Option State :=
  match setup workers with
  | none => none
  | some s => run data difficulty workers s sched

/-- The value returned by the caller, once it has returned. -/
def State.returns (s : State) : Option Nat :=
  match s.main with
  | Main.returned n => some n
  | _ => none

/-! ## Vocabulary of the statements about `Generate` -/

/-- The nonce `n` satisfies `Verify` for `data` and `difficulty`. -/
def Valid (data : List Nat) (difficulty n : Nat) : Prop := Verify data difficulty n = some true

/-- The nonce `n` is the first valid nonce of the range `[start, end)` of worker `j`. -/
def FirstIn (data : List Nat) (difficulty : Nat) (workers : Int) (j n : Nat) : Prop :=
  rangeStart workers j ≤ n ∧ n < rangeEnd workers j ∧ Valid data difficulty n ∧
    ∀ m, rangeStart workers j ≤ m → m < n → ¬ Valid data difficulty m

/-- The nonce the caller has received from `result`, if any. -/
def Main.got : Main → Option Nat
  | Main.closing n => some n
  | Main.waiting n => some n
  | Main.returned n => some n
  | _ => none

/-- One for a worker that has not left its loop or completed its send. -/
def Worker.pending : Worker → Nat
  | Worker.running _ _ _ => 1
  | Worker.sending _ => 1
  | _ => 0

/-- One for a worker that has ended. -/
def Worker.ended : Worker → Nat
  | Worker.exited => 1
  | _ => 0

/-- Bound on the number of steps a worker can still perform. -/
def Worker.fuel : Worker → Nat
  | Worker.running nonce stop _ => 3 + (stop - nonce)
  | Worker.sending _ => 2
  | Worker.finishing => 1
  | _ => 0

/-- Bound on the number of steps the caller and the workers not yet started can perform. -/
def Main.fuel (workers : Int) : Main → Nat
  | Main.spawning i => 4 + ((clampWorkers workers).toNat - i) * (2 ^ 64 + 4)
  | Main.receiving => 3
  | Main.closing _ => 2
  | Main.waiting _ => 1
  | Main.returned _ => 0

/-- Bound on the number of steps that can still be performed from a state. -/
def State.fuel (workers : Int) (s : State) : Nat :=
  s.main.fuel workers + (s.workers.map Worker.fuel).sum

/-- A state from which no goroutine can step: every goroutine has ended or is blocked. -/
def Terminal (data : List Nat) (difficulty : Nat) (workers : Int) (s : State) : Prop :=
  ∀ a, step data difficulty workers s a = none

/-- The transitions of `step`, one constructor for each branch of `stepMain` and
`stepWorker`. -/
inductive Trans (data : List Nat) (difficulty : Nat) (workers : Int) : State → State → Prop
  | spawn (m : Main) (ws : List Worker) (r : List Nat) (dn : Bool) (wg : Int) (i : Nat) :
    m = Main.spawning i → (i : Int) < clampWorkers workers →
    Trans data difficulty workers (State.mk m ws r dn wg)
      (State.mk (Main.spawning (i + 1))
        (ws ++ [Worker.running (rangeStart workers i) (rangeEnd workers i)
          (copy (make (data.length + 8)) data)]) r dn wg)
  | spawned (m : Main) (ws : List Worker) (r : List Nat) (dn : Bool) (wg : Int) (i : Nat) :
    m = Main.spawning i → ¬ (i : Int) < clampWorkers workers →
    Trans data difficulty workers (State.mk m ws r dn wg) (State.mk Main.receiving ws r dn wg)
  | receive (m : Main) (ws : List Worker) (r : List Nat) (dn : Bool) (wg : Int) (n : Nat)
    (rest : List Nat) :
    m = Main.receiving → r = n :: rest →
    Trans data difficulty workers (State.mk m ws r dn wg) (State.mk (Main.closing n) ws rest dn wg)
  | close (m : Main) (ws : List Worker) (r : List Nat) (dn : Bool) (wg : Int) (n : Nat) :
    m = Main.closing n →
    Trans data difficulty workers (State.mk m ws r dn wg) (State.mk (Main.waiting n) ws r true wg)
  | wait (m : Main) (ws : List Worker) (r : List Nat) (dn : Bool) (wg : Int) (n : Nat) :
    m = Main.waiting n → wg = 0 →
    Trans data difficulty workers (State.mk m ws r dn wg) (State.mk (Main.returned n) ws r dn wg)
  | loopEnd (m : Main) (ws : List Worker) (r : List Nat) (dn : Bool) (wg : Int) (i : Nat)
    (nonce stop : Nat) (buf : List Nat) :
    ws[i]? = some (Worker.running nonce stop buf) → ¬ nonce < stop →
    Trans data difficulty workers (State.mk m ws r dn wg)
      (State.mk m (ws.set i Worker.finishing) r dn wg)
  | cancelled (m : Main) (ws : List Worker) (r : List Nat) (dn : Bool) (wg : Int) (i : Nat)
    (nonce stop : Nat) (buf : List Nat) :
    ws[i]? = some (Worker.running nonce stop buf) → nonce < stop → dn = true →
    Trans data difficulty workers (State.mk m ws r dn wg)
      (State.mk m (ws.set i Worker.finishing) r dn wg)
  | panic (m : Main) (ws : List Worker) (r : List Nat) (dn : Bool) (wg : Int) (i : Nat)
    (nonce stop : Nat) (buf : List Nat) :
    ws[i]? = some (Worker.running nonce stop buf) → nonce < stop → dn = false →
    hashNonce buf data.length nonce = none →
    Trans data difficulty workers (State.mk m ws r dn wg)
      (State.mk m (ws.set i Worker.panicked) r dn wg)
  | found (m : Main) (ws : List Worker) (r : List Nat) (dn : Bool) (wg : Int) (i : Nat)
    (nonce stop : Nat) (buf buf2 : List Nat) (value : Nat) :
    ws[i]? = some (Worker.running nonce stop buf) → nonce < stop → dn = false →
    hashNonce buf data.length nonce = some (buf2, value) → value ≥ difficulty →
    Trans data difficulty workers (State.mk m ws r dn wg)
      (State.mk m (ws.set i (Worker.sending nonce)) r dn wg)
  | next (m : Main) (ws : List Worker) (r : List Nat) (dn : Bool) (wg : Int) (i : Nat)
    (nonce stop : Nat) (buf buf2 : List Nat) (value : Nat) :
    ws[i]? = some (Worker.running nonce stop buf) → nonce < stop → dn = false →
    hashNonce buf data.length nonce = some (buf2, value) → ¬ value ≥ difficulty →
    Trans data difficulty workers (State.mk m ws r dn wg)
      (State.mk m (ws.set i (Worker.running ((nonce + 1) % 2 ^ 64) stop buf2)) r dn wg)
  | handoff (m : Main) (ws : List Worker) (r : List Nat) (dn : Bool) (wg : Int) (i n : Nat) :
    ws[i]? = some (Worker.sending n) → m = Main.receiving → r = [] →
    Trans data difficulty workers (State.mk m ws r dn wg)
      (State.mk (Main.closing n) (ws.set i Worker.finishing) r dn wg)
  | enqueue (m : Main) (ws : List Worker) (r : List Nat) (dn : Bool) (wg : Int) (i n : Nat) :
    ws[i]? = some (Worker.sending n) → ¬ (m = Main.receiving ∧ r = []) →
    r.length < (clampWorkers workers - 1).toNat →
    Trans data difficulty workers (State.mk m ws r dn wg)
      (State.mk m (ws.set i Worker.finishing) (r ++ [n]) dn wg)
  | finish (m : Main) (ws : List Worker) (r : List Nat) (dn : Bool) (wg : Int) (i : Nat) :
    ws[i]? = some Worker.finishing → ¬ wgAdd wg (-1) < 0 →
    Trans data difficulty workers (State.mk m ws r dn wg)
      (State.mk m (ws.set i Worker.exited) r dn (wgAdd wg (-1)))
  | finishPanic (m : Main) (ws : List Worker) (r : List Nat) (dn : Bool) (wg : Int) (i : Nat) :
    ws[i]? = some Worker.finishing → wgAdd wg (-1) < 0 →
    Trans data difficulty workers (State.mk m ws r dn wg)
      (State.mk m (ws.set i Worker.panicked) r dn (wgAdd wg (-1)))

/-- A value has been published: it is in the channel or the caller has received it. -/
def State.published (s : State) : Prop := s.result ≠ [] ∨ s.main.got.isSome = true

/-- What the invariant says of worker `j`, given whether a value has been published. -/
def WorkerInv (data : List Nat) (difficulty : Nat) (workers : Int) (published : Prop) (j : Nat) :
    Worker → Prop
  | Worker.running nonce stop buf =>
    buf.length = data.length + 8 ∧ buf.take data.length = data ∧ stop = rangeEnd workers j ∧
    rangeStart workers j ≤ nonce ∧
    ∀ m, rangeStart workers j ≤ m → m < nonce → ¬ Valid data difficulty m
  | Worker.sending n => FirstIn data difficulty workers j n
  | Worker.finishing =>
    published ∨ ∀ m, rangeStart workers j ≤ m → m < rangeEnd workers j → ¬ Valid data difficulty m
  | Worker.exited =>
    published ∨ ∀ m, rangeStart workers j ≤ m → m < rangeEnd workers j → ¬ Valid data difficulty m
  | Worker.panicked =>
    published ∨ ∀ m, rangeStart workers j ≤ m → m < rangeEnd workers j → ¬ Valid data difficulty m

/-- The invariant of `Generate`: what holds in every state an execution can reach. -/
structure Inv (data : List Nat) (difficulty : Nat) (workers : Int) (s : State) : Prop where
  /-- A worker in its loop owns a buffer that starts with the payload, scans up to the end
  of its range and has found no valid nonce below its current one; a worker at its send
  holds the first valid nonce of its range; a worker left its loop because a value was
  published or because its range holds no valid nonce (a panic occurs only in the deferred
  `wg.Done()`, after the loop). -/
  worker : ∀ (j : Nat) (w : Worker), s.workers[j]? = some w →
    WorkerInv data difficulty workers s.published j w
  /-- Every buffered value is the first valid nonce of the range of a started worker. -/
  buffered : ∀ n ∈ s.result, ∃ j, j < s.workers.length ∧ FirstIn data difficulty workers j n
  /-- So is the value the caller has received. -/
  got : ∀ n, s.main.got = some n →
    ∃ j, j < s.workers.length ∧ FirstIn data difficulty workers j n
  /-- The channel `done` is closed only after the caller has executed `close(done)`. -/
  done : s.done = true → ∃ n, s.main = Main.waiting n ∨ s.main = Main.returned n
  /-- Every value in the channel or received by the caller comes from a worker that has
  completed its send. -/
  count : s.result.length + (if s.main.got.isSome = true then 1 else 0) +
    (s.workers.map Worker.pending).sum ≤ s.workers.length
  /-- While the caller is in its loop, exactly the workers below `i` are started. -/
  spawning : ∀ i, s.main = Main.spawning i →
    s.workers.length = i ∧ (i : Int) ≤ clampWorkers workers
  /-- After the loop all workers are started. -/
  spawned : (∀ i, s.main ≠ Main.spawning i) → (s.workers.length : Int) = clampWorkers workers

/-- The invariant of the wait group, for worker counts that fit its 32-bit counter: the
counter is the number of workers that have not ended, and no worker has panicked. -/
structure WgInv (workers : Int) (s : State) : Prop where
  /-- The counter is the number of workers that have not ended. -/
  counter : s.wg + ((s.workers.map Worker.ended).sum : Int) = clampWorkers workers
  /-- No worker has panicked. -/
  noPanic : ∀ (j : Nat), s.workers[j]? ≠ some Worker.panicked

/-! ## Facts about the digest and the byte encodings -/

theorem sha256Round_length (s : List Nat) (kw : Nat × Nat) :
    (sha256Round s kw).length = s.length := by
  unfold sha256Round
  split <;> simp

theorem foldl_sha256Round_length (l : List (Nat × Nat)) (s : List Nat) :
    (l.foldl sha256Round s).length = s.length := by
  induction l generalizing s with
  | nil => rfl
  | cons kw l ih => simp [List.foldl_cons, ih, sha256Round_length]

theorem sha256Block_length (h block : List Nat) : (sha256Block h block).length = h.length := by
  simp [sha256Block, List.length_zipWith, foldl_sha256Round_length]

theorem sha256Blocks_length (n : Nat) (h m : List Nat) :
    (sha256Blocks n h m).length = h.length := by
  induction n generalizing h m with
  | zero => rfl
  | succ n ih => simp [sha256Blocks, ih, sha256Block_length]

theorem flatMap_wordBytes_length (l : List Nat) : (l.flatMap wordBytes).length = 4 * l.length := by
  induction l with
  | nil => rfl
  | cons w l ih => simp [List.flatMap_cons, wordBytes, ih]; omega

theorem Sum256_length (msg : List Nat) : (Sum256 msg).length = 32 := by
  unfold Sum256
  rw [flatMap_wordBytes_length, sha256Blocks_length]
  rfl

theorem Sum256_lt (msg : List Nat) (b : Nat) (hb : b ∈ Sum256 msg) : b < 256 := by
  simp only [Sum256, List.mem_flatMap, wordBytes] at hb
  obtain ⟨w, -, hw⟩ := hb
  simp only [List.mem_cons, List.mem_singleton, List.not_mem_nil, or_false] at hw
  rcases hw with h | h | h | h <;> subst h <;> exact Nat.mod_lt _ (by decide)

theorem be64_length (v : Nat) : (be64 v).length = 8 := rfl

/-- Reading eight bytes with shifts and ors is reading them in base 256. -/
theorem Uint64_eq_foldl (b0 b1 b2 b3 b4 b5 b6 b7 : Nat) (rest : List Nat)
    (h0 : b0 < 256) (h1 : b1 < 256) (h2 : b2 < 256) (h3 : b3 < 256)
    (h4 : b4 < 256) (h5 : b5 < 256) (h6 : b6 < 256) (h7 : b7 < 256) :
    Uint64 (b0 :: b1 :: b2 :: b3 :: b4 :: b5 :: b6 :: b7 :: rest) =
      some ([b0, b1, b2, b3, b4, b5, b6, b7].foldl (fun acc b => acc * 256 + b) 0) := by
  have e1 : b7 ||| b6 <<< 8 = 2 ^ 8 * b6 + b7 := by
    rw [Nat.lor_comm, Nat.shiftLeft_eq, Nat.mul_comm, ← Nat.mul_add_lt_is_or (by omega)]
  have e2 : (2 ^ 8 * b6 + b7) ||| b5 <<< 16 = 2 ^ 16 * b5 + (2 ^ 8 * b6 + b7) := by
    rw [Nat.lor_comm, Nat.shiftLeft_eq, Nat.mul_comm, ← Nat.mul_add_lt_is_or (by omega)]
  have e3 : (2 ^ 16 * b5 + (2 ^ 8 * b6 + b7)) ||| b4 <<< 24 =
      2 ^ 24 * b4 + (2 ^ 16 * b5 + (2 ^ 8 * b6 + b7)) := by
    rw [Nat.lor_comm, Nat.shiftLeft_eq, Nat.mul_comm, ← Nat.mul_add_lt_is_or (by omega)]
  have e4 : (2 ^ 24 * b4 + (2 ^ 16 * b5 + (2 ^ 8 * b6 + b7))) ||| b3 <<< 32 =
      2 ^ 32 * b3 + (2 ^ 24 * b4 + (2 ^ 16 * b5 + (2 ^ 8 * b6 + b7))) := by
    rw [Nat.lor_comm, Nat.shiftLeft_eq, Nat.mul_comm, ← Nat.mul_add_lt_is_or (by omega)]
  have e5 : (2 ^ 32 * b3 + (2 ^ 24 * b4 + (2 ^ 16 * b5 + (2 ^ 8 * b6 + b7)))) ||| b2 <<< 40 =
      2 ^ 40 * b2 + (2 ^ 32 * b3 + (2 ^ 24 * b4 + (2 ^ 16 * b5 + (2 ^ 8 * b6 + b7)))) := by
    rw [Nat.lor_comm, Nat.shiftLeft_eq, Nat.mul_comm, ← Nat.mul_add_lt_is_or (by omega)]
  have e6 : (2 ^ 40 * b2 + (2 ^ 32 * b3 + (2 ^ 24 * b4 + (2 ^ 16 * b5 + (2 ^ 8 * b6 + b7))))) |||
      b1 <<< 48 =
      2 ^ 48 * b1 + (2 ^ 40 * b2 + (2 ^ 32 * b3 + (2 ^ 24 * b4 + (2 ^ 16 * b5 +
        (2 ^ 8 * b6 + b7))))) := by
    rw [Nat.lor_comm, Nat.shiftLeft_eq, Nat.mul_comm, ← Nat.mul_add_lt_is_or (by omega)]
  have e7 : (2 ^ 48 * b1 + (2 ^ 40 * b2 + (2 ^ 32 * b3 + (2 ^ 24 * b4 + (2 ^ 16 * b5 +
      (2 ^ 8 * b6 + b7)))))) ||| b0 <<< 56 =
      2 ^ 56 * b0 + (2 ^ 48 * b1 + (2 ^ 40 * b2 + (2 ^ 32 * b3 + (2 ^ 24 * b4 + (2 ^ 16 * b5 +
        (2 ^ 8 * b6 + b7)))))) := by
    rw [Nat.lor_comm, Nat.shiftLeft_eq, Nat.mul_comm, ← Nat.mul_add_lt_is_or (by omega)]
  simp only [Uint64, e1, e2, e3, e4, e5, e6, e7, List.foldl_cons, List.foldl_nil]
  congr 1
  omega

theorem hashNonce_eq (buf : List Nat) (off nonce : Nat) (hlen : buf.length = off + 8) :
    ∃ v, hashNonce buf off nonce = some (buf.take off ++ be64 nonce, v) ∧
      Uint64 (Sum256 (buf.take off ++ be64 nonce)) = some v := by
  have hd : (buf.drop off).drop 8 = [] := by
    apply List.eq_nil_of_length_eq_zero
    simp [hlen]
  have hU : ∃ v, Uint64 (Sum256 (buf.take off ++ be64 nonce)) = some v := by
    have hl := Sum256_length (buf.take off ++ be64 nonce)
    generalize Sum256 (buf.take off ++ be64 nonce) = h at hl
    match h, hl with
    | b0 :: b1 :: b2 :: b3 :: b4 :: b5 :: b6 :: b7 :: _, _ => exact ⟨_, rfl⟩
  obtain ⟨v, hv⟩ := hU
  refine ⟨v, ?_, hv⟩
  have h1 : sliceFrom buf off = some (buf.drop off) := by
    simp [sliceFrom, hlen]
  have h2 : PutUint64 (buf.drop off) nonce = some (be64 nonce) := by
    simp [PutUint64, hlen, hd]
  simp [hashNonce, h1, h2, hv]

theorem copy_make (data : List Nat) :
    copy (make (data.length + 8)) data = data ++ List.replicate 8 0 := by
  simp [copy, make, List.take_of_length_le]

theorem getElem?_set_some {α : Type} {l : List α} {i j : Nat} {a b : α}
    (h : (l.set i a)[j]? = some b) : (j = i ∧ b = a) ∨ (j ≠ i ∧ l[j]? = some b) := by
  rw [List.getElem?_set] at h
  by_cases hij : i = j
  · subst hij
    simp only [if_true] at h
    split at h
    · exact Or.inl ⟨rfl, (Option.some.inj h).symm⟩
    · cases h
  · simp only [hij, if_false] at h
    exact Or.inr ⟨fun e => hij e.symm, h⟩

theorem getElem?_snoc_some {α : Type} {l : List α} {j : Nat} {a b : α}
    (h : (l ++ [a])[j]? = some b) : (j < l.length ∧ l[j]? = some b) ∨ (j = l.length ∧ b = a) := by
  rw [List.getElem?_append] at h
  split at h
  · exact Or.inl ⟨by assumption, h⟩
  · rename_i hj
    have hlt : j - l.length < 1 := by
      by_contra hc
      rw [List.getElem?_eq_none (by simp only [List.length_singleton]; omega)] at h
      cases h
    have hj0 : j - l.length = 0 := by omega
    rw [hj0] at h
    simp only [List.getElem?_cons_zero, Option.some.injEq] at h
    exact Or.inr ⟨by omega, h.symm⟩

theorem sum_map_set {α : Type} (f : α → Nat) (l : List α) (i : Nat) (a b : α)
    (h : l[i]? = some a) : ((l.set i b).map f).sum + f a = (l.map f).sum + f b := by
  induction l generalizing i with
  | nil => simp at h
  | cons x l ih =>
    cases i with
    | zero =>
      simp only [List.getElem?_cons_zero, Option.some.injEq] at h
      subst h
      simp only [List.set_cons_zero, List.map_cons, List.sum_cons]
      omega
    | succ i =>
      simp only [List.getElem?_cons_succ] at h
      have := ih i h
      simp only [List.set_cons_succ, List.map_cons, List.sum_cons]
      omega

/-- The source function computes the mapped value of the specification, and never panics. -/
theorem Difficulty_eq (data : List Nat) (nonce : Nat) :
    Difficulty data nonce = some (mappedValue data nonce) := by
  have hlen : (copy (make (data.length + 8)) data).length = data.length + 8 := by
    simp [copy_make]
  obtain ⟨v, h1, h2⟩ := hashNonce_eq _ data.length nonce hlen
  have ht : (copy (make (data.length + 8)) data).take data.length = data := by
    simp [copy_make]
  rw [ht] at h1 h2
  have hl := Sum256_length (data ++ be64 nonce)
  have hb := Sum256_lt (data ++ be64 nonce)
  have hv : v = mappedValue data nonce := by
    unfold mappedValue
    generalize Sum256 (data ++ be64 nonce) = h at hl hb h2
    match h, hl with
    | b0 :: b1 :: b2 :: b3 :: b4 :: b5 :: b6 :: b7 :: rest, _ =>
      rw [Uint64_eq_foldl] at h2
      · exact (Option.some.inj h2).symm
      all_goals (apply hb; simp)
  subst hv
  simp [Difficulty, h1]

theorem mappedValue_le (data : List Nat) (nonce : Nat) : mappedValue data nonce ≤ maxUint64 := by
  have hl := Sum256_length (data ++ be64 nonce)
  have hb := Sum256_lt (data ++ be64 nonce)
  unfold mappedValue maxUint64
  generalize Sum256 (data ++ be64 nonce) = h at hl hb
  match h, hl with
  | b0 :: b1 :: b2 :: b3 :: b4 :: b5 :: b6 :: b7 :: rest, _ =>
    have h0 := hb b0 (by simp)
    have h1 := hb b1 (by simp)
    have h2 := hb b2 (by simp)
    have h3 := hb b3 (by simp)
    have h4 := hb b4 (by simp)
    have h5 := hb b5 (by simp)
    have h6 := hb b6 (by simp)
    have h7 := hb b7 (by simp)
    simp only [List.take_succ_cons, List.take_zero, List.foldl_cons, List.foldl_nil]
    omega

theorem Verify_eq (data : List Nat) (difficulty nonce : Nat) :
    Verify data difficulty nonce = some (decide (mappedValue data nonce ≥ difficulty)) := by
  simp [Verify, Difficulty_eq]

/-- The body of the search loop computes the mapped value when the buffer holds the payload. -/
theorem hashNonce_value (data buf : List Nat) (nonce : Nat)
    (hlen : buf.length = data.length + 8) (ht : buf.take data.length = data) :
    hashNonce buf data.length nonce = some (data ++ be64 nonce, mappedValue data nonce) := by
  obtain ⟨v, h1, h2⟩ := hashNonce_eq buf data.length nonce hlen
  have hlen2 : (copy (make (data.length + 8)) data).length = data.length + 8 := by
    simp [copy_make]
  obtain ⟨u, h3, h4⟩ := hashNonce_eq _ data.length nonce hlen2
  have ht2 : (copy (make (data.length + 8)) data).take data.length = data := by
    simp [copy_make]
  rw [ht] at h1 h2
  rw [ht2] at h3 h4
  have hD := Difficulty_eq data nonce
  simp only [Difficulty, h3, Option.bind_eq_bind, Option.some_bind, Option.pure_def,
    Option.some.injEq] at hD
  rw [h4] at h2
  have : u = v := Option.some.inj h2
  rw [h1, ← this, hD]

theorem Valid_iff (data : List Nat) (difficulty n : Nat) :
    Valid data difficulty n ↔ difficulty ≤ mappedValue data n := by
  simp [Valid, Verify_eq]

/-! ## The transition relation -/

theorem step_trans (data : List Nat) (difficulty : Nat) (workers : Int) (s t : State)
    (a : Action) (h : step data difficulty workers s a = some t) :
    Trans data difficulty workers s t := by
  obtain ⟨m, ws, r, dn, wg⟩ := s
  cases a with
  | main =>
    cases m with
    | spawning i =>
      simp only [step, stepMain] at h
      split at h
      · cases h; exact Trans.spawn _ _ _ _ _ i rfl (by assumption)
      · cases h; exact Trans.spawned _ _ _ _ _ i rfl (by assumption)
    | receiving =>
      cases r with
      | nil => simp [step, stepMain] at h
      | cons n rest =>
        simp only [step, stepMain] at h
        cases h; exact Trans.receive _ _ _ _ _ n rest rfl rfl
    | closing n =>
      simp only [step, stepMain] at h
      cases h; exact Trans.close _ _ _ _ _ n rfl
    | waiting n =>
      simp only [step, stepMain] at h
      split at h
      · cases h; exact Trans.wait _ _ _ _ _ n rfl (by assumption)
      · cases h
    | returned n => simp [step, stepMain] at h
  | worker i =>
    simp only [step, stepWorker] at h
    split at h
    · rename_i nonce stop buf hw
      split at h
      · rename_i hlt
        split at h
        · rename_i hd
          cases h; exact Trans.cancelled _ _ _ _ _ i nonce stop buf hw hlt hd
        · rename_i hd
          simp only [Bool.not_eq_true] at hd
          split at h
          · rename_i hh
            cases h; exact Trans.panic _ _ _ _ _ i nonce stop buf hw hlt hd hh
          · rename_i buf2 value hh
            split at h
            · cases h; exact Trans.found _ _ _ _ _ i nonce stop buf buf2 value hw hlt hd hh
                (by assumption)
            · cases h; exact Trans.next _ _ _ _ _ i nonce stop buf buf2 value hw hlt hd hh
                (by assumption)
      · cases h; exact Trans.loopEnd _ _ _ _ _ i nonce stop buf hw (by assumption)
    · rename_i n hw
      split at h
      · rename_i hc
        cases h; exact Trans.handoff _ _ _ _ _ i n hw hc.1 hc.2
      · rename_i hc
        split at h
        · cases h; exact Trans.enqueue _ _ _ _ _ i n hw hc (by assumption)
        · cases h
    · rename_i hw
      split at h
      · cases h; exact Trans.finishPanic _ _ _ _ _ i hw (by assumption)
      · cases h; exact Trans.finish _ _ _ _ _ i hw (by assumption)
    · cases h

/-! ## The invariant is preserved -/

theorem WorkerInv_mono (data : List Nat) (difficulty : Nat) (workers : Int) (P Q : Prop)
    (hPQ : P → Q) (j : Nat) (w : Worker) (h : WorkerInv data difficulty workers P j w) :
    WorkerInv data difficulty workers Q j w := by
  cases w with
  | running nonce stop buf => exact h
  | sending n => exact h
  | finishing => exact h.imp hPQ id
  | exited => exact h.imp hPQ id
  | panicked => exact h.imp hPQ id

theorem workerInv_set (data : List Nat) (difficulty : Nat) (workers : Int) (P Q : Prop)
    (ws : List Worker) (i : Nat) (w0 : Worker)
    (h : ∀ (j : Nat) (w : Worker), ws[j]? = some w → WorkerInv data difficulty workers P j w)
    (hPQ : P → Q) (h0 : WorkerInv data difficulty workers Q i w0) :
    ∀ (j : Nat) (w : Worker), (ws.set i w0)[j]? = some w →
      WorkerInv data difficulty workers Q j w := by
  intro j w hw
  rcases getElem?_set_some hw with ⟨rfl, rfl⟩ | ⟨-, hw⟩
  · exact h0
  · exact WorkerInv_mono _ _ _ P Q hPQ j w (h j w hw)

theorem workerInv_snoc (data : List Nat) (difficulty : Nat) (workers : Int) (P Q : Prop)
    (ws : List Worker) (w0 : Worker)
    (h : ∀ (j : Nat) (w : Worker), ws[j]? = some w → WorkerInv data difficulty workers P j w)
    (hPQ : P → Q) (h0 : WorkerInv data difficulty workers Q ws.length w0) :
    ∀ (j : Nat) (w : Worker), (ws ++ [w0])[j]? = some w →
      WorkerInv data difficulty workers Q j w := by
  intro j w hw
  rcases getElem?_snoc_some hw with ⟨-, hw⟩ | ⟨rfl, rfl⟩
  · exact WorkerInv_mono _ _ _ P Q hPQ j w (h j w hw)
  · exact h0

theorem lt_length_of_getElem? {α : Type} {l : List α} {i : Nat} {a : α} (h : l[i]? = some a) :
    i < l.length := by
  obtain ⟨hi, -⟩ := List.getElem?_eq_some.1 h
  exact hi

theorem inv_start (data : List Nat) (difficulty : Nat) (workers : Int) :
    Inv data difficulty workers (start workers) := by
  refine ⟨?_, ?_, ?_, ?_, ?_, ?_, ?_⟩
  · intro j w h; simp [start] at h
  · intro n h; simp [start] at h
  · intro n h; simp [start, Main.got] at h
  · intro h; simp [start] at h
  · simp [start, Main.got]
  · intro i h
    simp only [start, Main.spawning.injEq] at h
    subst h
    simp [start, clampWorkers]
    split <;> omega
  · intro h; exact absurd rfl (h 0)

theorem inv_step (data : List Nat) (difficulty : Nat) (workers : Int) (s t : State)
    (hs : Inv data difficulty workers s) (ht : Trans data difficulty workers s t) :
    Inv data difficulty workers t := by
  obtain ⟨hW, hB, hG, hD, hC, hSp, hSd⟩ := hs
  cases ht with
  | spawn m ws r dn wg i hm hi =>
    subst hm
    simp only [State.published, Main.got] at *
    obtain ⟨hlen, -⟩ := hSp i rfl
    refine ⟨?_, ?_, ?_, ?_, ?_, ?_, ?_⟩
    · refine workerInv_snoc _ _ _ _ _ ws _ hW id ?_
      rw [hlen]
      refine ⟨by simp [copy_make], by simp [copy_make], rfl, le_refl _, ?_⟩
      intro m h1 h2; omega
    · intro n hn
      obtain ⟨j, hj, hf⟩ := hB n hn
      exact ⟨j, by simp; omega, hf⟩
    · intro n hn; cases hn
    · intro h
      obtain ⟨n, h | h⟩ := hD h <;> cases h
    · simp [Worker.pending, Main.got] at hC ⊢; omega
    · intro k hk
      cases hk
      simp [hlen]; omega
    · intro h; exact absurd rfl (h (i + 1))
  | spawned m ws r dn wg i hm hi =>
    subst hm
    simp only [State.published, Main.got] at *
    obtain ⟨hlen, hle⟩ := hSp i rfl
    refine ⟨hW, hB, ?_, ?_, hC, ?_, ?_⟩
    · intro n hn; cases hn
    · intro h
      obtain ⟨n, h | h⟩ := hD h <;> cases h
    · intro k hk; cases hk
    · intro _
      show (ws.length : Int) = _
      omega
  | receive m ws r dn wg n rest hm hr =>
    subst hm hr
    simp only [State.published, Main.got] at *
    refine ⟨?_, ?_, ?_, ?_, ?_, ?_, ?_⟩
    · intro j w hw
      exact WorkerInv_mono _ _ _ _ _ (fun _ => Or.inr rfl) j w (hW j w hw)
    · intro k hk; exact hB k (List.mem_cons_of_mem _ hk)
    · intro k hk
      cases hk
      exact hB n (List.mem_cons_self _ _)
    · intro h
      obtain ⟨n, h | h⟩ := hD h <;> cases h
    · simp [Main.got] at hC ⊢; omega
    · intro k hk; cases hk
    · intro _; exact hSd (fun i h => by cases h)
  | close m ws r dn wg n hm =>
    subst hm
    simp only [State.published, Main.got] at *
    refine ⟨hW, hB, hG, ?_, hC, ?_, ?_⟩
    · intro _; exact ⟨n, Or.inl rfl⟩
    · intro k hk; cases hk
    · intro _; exact hSd (fun i h => by cases h)
  | wait m ws r dn wg n hm hz =>
    subst hm
    simp only [State.published, Main.got] at *
    refine ⟨hW, hB, hG, ?_, hC, ?_, ?_⟩
    · intro _; exact ⟨n, Or.inr rfl⟩
    · intro k hk; cases hk
    · intro _; exact hSd (fun i h => by cases h)
  | loopEnd m ws r dn wg i nonce stop buf hw hge =>
    simp only [State.published] at *
    have hlt := lt_length_of_getElem? hw
    obtain ⟨-, -, hstop, -, hno⟩ := hW i _ hw
    have hsum := sum_map_set Worker.pending ws i _ Worker.finishing hw
    simp only [Worker.pending] at hsum
    refine ⟨?_, ?_, by simpa using hG, hD, ?_, ?_, ?_⟩
    · refine workerInv_set _ _ _ _ _ ws i _ hW id ?_
      exact Or.inr (fun k h1 h2 => hno k h1 (by omega))
    · simpa using hB
    · simp only [List.length_set]; omega
    · simpa using hSp
    · simpa using hSd
  | cancelled m ws r dn wg i nonce stop buf hw hlt hdn =>
    simp only [State.published] at *
    have hsum := sum_map_set Worker.pending ws i _ Worker.finishing hw
    simp only [Worker.pending] at hsum
    refine ⟨?_, ?_, by simpa using hG, hD, ?_, ?_, ?_⟩
    · refine workerInv_set _ _ _ _ _ ws i _ hW id ?_
      obtain ⟨n, h | h⟩ := hD hdn <;> exact Or.inl (Or.inr (by rw [h]; rfl))
    · simpa using hB
    · simp only [List.length_set]; omega
    · simpa using hSp
    · simpa using hSd
  | panic m ws r dn wg i nonce stop buf hw hlt hdn hh =>
    exfalso
    obtain ⟨hl, htk, -⟩ := hW i _ hw
    rw [hashNonce_value data buf nonce hl htk] at hh
    cases hh
  | found m ws r dn wg i nonce stop buf buf2 value hw hlt hdn hh hv =>
    simp only [State.published] at *
    obtain ⟨hl, htk, hstop, hlo, hno⟩ := hW i _ hw
    rw [hashNonce_value data buf nonce hl htk] at hh
    simp only [Option.some.injEq, Prod.mk.injEq] at hh
    obtain ⟨rfl, rfl⟩ := hh
    have hsum := sum_map_set Worker.pending ws i _ (Worker.sending nonce) hw
    simp only [Worker.pending] at hsum
    refine ⟨?_, ?_, by simpa using hG, hD, ?_, ?_, ?_⟩
    · refine workerInv_set _ _ _ _ _ ws i _ hW id ?_
      exact ⟨hlo, by omega, (Valid_iff _ _ _).2 hv, hno⟩
    · simpa using hB
    · simp only [List.length_set]; omega
    · simpa using hSp
    · simpa using hSd
  | next m ws r dn wg i nonce stop buf buf2 value hw hlt hdn hh hv =>
    simp only [State.published] at *
    obtain ⟨hl, htk, hstop, hlo, hno⟩ := hW i _ hw
    rw [hashNonce_value data buf nonce hl htk] at hh
    simp only [Option.some.injEq, Prod.mk.injEq] at hh
    obtain ⟨rfl, rfl⟩ := hh
    have hsum := sum_map_set Worker.pending ws i _
      (Worker.running ((nonce + 1) % 2 ^ 64) stop (data ++ be64 nonce)) hw
    simp only [Worker.pending] at hsum
    have hstop2 : stop < 2 ^ 64 := by
      rw [hstop]; exact Nat.mod_lt _ (by decide)
    have hn1 : (nonce + 1) % 2 ^ 64 = nonce + 1 := Nat.mod_eq_of_lt (by omega)
    refine ⟨?_, ?_, by simpa using hG, hD, ?_, ?_, ?_⟩
    · refine workerInv_set _ _ _ _ _ ws i _ hW id ?_
      refine ⟨by simp [be64_length], by simp, hstop, by omega, ?_⟩
      intro k h1 h2
      by_cases hk : k = nonce
      · subst hk
        rw [Valid_iff]; omega
      · exact hno k h1 (by omega)
    · simpa using hB
    · simp only [List.length_set]; omega
    · simpa using hSp
    · simpa using hSd
  | handoff m ws r dn wg i n hw hm hr =>
    subst hm hr
    simp only [State.published, Main.got] at *
    have hlt := lt_length_of_getElem? hw
    have hfirst : FirstIn data difficulty workers i n := hW i _ hw
    have hsum := sum_map_set Worker.pending ws i _ Worker.finishing hw
    simp only [Worker.pending] at hsum
    refine ⟨?_, ?_, ?_, ?_, ?_, ?_, ?_⟩
    · refine workerInv_set _ _ _ _ _ ws i _ hW (fun _ => Or.inr rfl) ?_
      exact Or.inl (Or.inr rfl)
    · simp
    · intro k hk
      cases hk
      exact ⟨i, by simpa using hlt, hfirst⟩
    · intro h
      obtain ⟨n, h | h⟩ := hD h <;> cases h
    · simp only [List.length_set, List.length_nil, Main.got, Option.isSome_some,
        Option.isSome_none, ↓reduceIte, Bool.false_eq_true] at hC ⊢
      omega
    · intro k hk; cases hk
    · intro _; simpa using hSd (fun i h => by cases h)
  | enqueue m ws r dn wg i n hw hm hr =>
    simp only [State.published] at *
    have hlt := lt_length_of_getElem? hw
    have hfirst : FirstIn data difficulty workers i n := hW i _ hw
    have hsum := sum_map_set Worker.pending ws i _ Worker.finishing hw
    simp only [Worker.pending] at hsum
    refine ⟨?_, ?_, ?_, hD, ?_, ?_, ?_⟩
    · refine workerInv_set _ _ _ _ _ ws i _ hW (fun _ => Or.inl (by simp)) ?_
      exact Or.inl (Or.inl (by simp))
    · intro k hk
      rcases List.mem_append.1 hk with hk | hk
      · simpa using hB k hk
      · simp only [List.mem_singleton] at hk
        subst hk
        exact ⟨i, by simpa using hlt, hfirst⟩
    · simpa using hG
    · simp only [List.length_set, List.length_append, List.length_singleton]; omega
    · simpa using hSp
    · simpa using hSd
  | finish m ws r dn wg i hw hv =>
    simp only [State.published] at *
    have hsum := sum_map_set Worker.pending ws i _ Worker.exited hw
    simp only [Worker.pending] at hsum
    refine ⟨?_, ?_, ?_, hD, ?_, ?_, ?_⟩
    · refine workerInv_set _ _ _ _ _ ws i _ hW id ?_
      exact hW i Worker.finishing hw
    · simpa using hB
    · simpa using hG
    · simp only [List.length_set]; omega
    · simpa using hSp
    · simpa using hSd
  | finishPanic m ws r dn wg i hw hv =>
    simp only [State.published] at *
    have hsum := sum_map_set Worker.pending ws i _ Worker.panicked hw
    simp only [Worker.pending] at hsum
    refine ⟨?_, ?_, ?_, hD, ?_, ?_, ?_⟩
    · refine workerInv_set _ _ _ _ _ ws i _ hW id ?_
      exact hW i Worker.finishing hw
    · simpa using hB
    · simpa using hG
    · simp only [List.length_set]; omega
    · simpa using hSp
    · simpa using hSd

/-! ## Executions -/

theorem inv_run (data : List Nat) (difficulty : Nat) (workers : Int) (sched : List Action)
    (s t : State) (hs : Inv data difficulty workers s)
    (h : run data difficulty workers s sched = some t) : Inv data difficulty workers t := by
  induction sched generalizing s with
  | nil =>
    simp only [run, Option.some.injEq] at h
    subst h; exact hs
  | cons a rest ih =>
    simp only [run] at h
    split at h
    · cases h
    · rename_i u hu
      exact ih u (inv_step _ _ _ _ _ hs (step_trans _ _ _ _ _ _ hu)) h

/-- An execution of `Generate` is an execution from the state after the statements before
the loop, none of which has panicked. -/
theorem Generate_run (data : List Nat) (difficulty : Nat) (workers : Int) (sched : List Action)
    (s : State) (h : Generate data difficulty workers sched = some s) :
    setup workers = some (start workers) ∧
      run data difficulty workers (start workers) sched = some s := by
  unfold Generate at h
  cases hs : setup workers with
  | none => rw [hs] at h; cases h
  | some s0 =>
    rw [hs] at h
    have e : s0 = start workers := by
      unfold setup at hs
      split at hs
      · cases hs
      · split at hs
        · cases hs
        · exact (Option.some.inj hs).symm
    subst e
    exact ⟨rfl, h⟩

theorem Generate_of_setup (data : List Nat) (difficulty : Nat) (workers : Int)
    (sched : List Action) (h : setup workers = some (start workers)) :
    Generate data difficulty workers sched =
      run data difficulty workers (start workers) sched := by
  unfold Generate
  rw [h]

theorem toInt32_eq (x : Int) (h1 : -(2 ^ 31) ≤ x) (h2 : x < 2 ^ 31) : toInt32 x = x := by
  unfold toInt32
  omega

/-- For a worker count that fits the 32-bit counter of the wait group, neither
`make(chan uint64, workers-1)` nor `wg.Add(workers)` panics. -/
theorem setup_ok (workers : Int) (hW : workers ≤ maxInt32) :
    setup workers = some (start workers) := by
  have h1 : 1 ≤ clampWorkers workers := by
    unfold clampWorkers
    split <;> omega
  have h2 : clampWorkers workers ≤ maxInt32 := by
    unfold clampWorkers
    split
    · unfold maxInt32; omega
    · exact hW
  unfold maxInt32 at h2
  have h3 : wgAdd 0 (clampWorkers workers) = clampWorkers workers := by
    unfold wgAdd
    rw [toInt32_eq _ (by omega) (by omega)]
    omega
  have h4 : makeChan (clampWorkers workers - 1) = some (clampWorkers workers - 1).toNat := by
    unfold makeChan maxAlloc hchanSize
    rw [if_pos]
    constructor <;> omega
  unfold setup
  rw [h4]
  simp only [h3]
  rw [if_neg (by omega)]

theorem inv_Generate (data : List Nat) (difficulty : Nat) (workers : Int) (sched : List Action)
    (s : State) (h : Generate data difficulty workers sched = some s) :
    Inv data difficulty workers s :=
  inv_run _ _ _ sched _ _ (inv_start _ _ _) (Generate_run _ _ _ _ _ h).2

theorem run_append (data : List Nat) (difficulty : Nat) (workers : Int) (s : State)
    (xs ys : List Action) :
    run data difficulty workers s (xs ++ ys) =
      (run data difficulty workers s xs).bind (fun t => run data difficulty workers t ys) := by
  induction xs generalizing s with
  | nil => rfl
  | cons a rest ih =>
    simp only [List.cons_append, run]
    split
    · rfl
    · exact ih _

/-! ## Every execution is finite -/

theorem fuel_step (data : List Nat) (difficulty : Nat) (workers : Int) (s t : State)
    (hs : Inv data difficulty workers s) (ht : Trans data difficulty workers s t) :
    t.fuel workers < s.fuel workers := by
  cases ht with
  | spawn m ws r dn wg i hm hi =>
    subst hm
    have he : rangeEnd workers i < 2 ^ 64 := Nat.mod_lt _ (by decide)
    have hi2 : i < (clampWorkers workers).toNat := by omega
    obtain ⟨k, hk⟩ : ∃ k, (clampWorkers workers).toNat - i = k + 1 :=
      ⟨(clampWorkers workers).toNat - i - 1, by omega⟩
    have hk2 : (clampWorkers workers).toNat - (i + 1) = k := by omega
    simp only [State.fuel, Main.fuel, List.map_append, List.sum_append, List.map_cons,
      List.map_nil, List.sum_cons, List.sum_nil, Worker.fuel, hk, hk2]
    have : rangeEnd workers i - rangeStart workers i ≤ rangeEnd workers i := Nat.sub_le _ _
    generalize (List.map Worker.fuel ws).sum = a
    generalize rangeEnd workers i - rangeStart workers i = b at *
    ring_nf
    omega
  | spawned m ws r dn wg i hm hi =>
    subst hm
    simp only [State.fuel, Main.fuel]
    omega
  | receive m ws r dn wg n rest hm hr =>
    subst hm
    simp only [State.fuel, Main.fuel]
    omega
  | close m ws r dn wg n hm =>
    subst hm
    simp only [State.fuel, Main.fuel]
    omega
  | wait m ws r dn wg n hm hz =>
    subst hm
    simp only [State.fuel, Main.fuel]
    omega
  | loopEnd m ws r dn wg i nonce stop buf hw hge =>
    have hsum := sum_map_set Worker.fuel ws i _ Worker.finishing hw
    simp only [State.fuel, Worker.fuel] at hsum ⊢
    omega
  | cancelled m ws r dn wg i nonce stop buf hw hlt hdn =>
    have hsum := sum_map_set Worker.fuel ws i _ Worker.finishing hw
    simp only [State.fuel, Worker.fuel] at hsum ⊢
    omega
  | panic m ws r dn wg i nonce stop buf hw hlt hdn hh =>
    have hsum := sum_map_set Worker.fuel ws i _ Worker.panicked hw
    simp only [State.fuel, Worker.fuel] at hsum ⊢
    omega
  | found m ws r dn wg i nonce stop buf buf2 value hw hlt hdn hh hv =>
    have hsum := sum_map_set Worker.fuel ws i _ (Worker.sending nonce) hw
    simp only [State.fuel, Worker.fuel] at hsum ⊢
    omega
  | next m ws r dn wg i nonce stop buf buf2 value hw hlt hdn hh hv =>
    obtain ⟨-, -, hstop, -, -⟩ := hs.worker i _ hw
    have hstop2 : stop < 2 ^ 64 := by
      rw [hstop]; exact Nat.mod_lt _ (by decide)
    have hn1 : (nonce + 1) % 2 ^ 64 = nonce + 1 := Nat.mod_eq_of_lt (by omega)
    have hsum := sum_map_set Worker.fuel ws i _
      (Worker.running ((nonce + 1) % 2 ^ 64) stop buf2) hw
    simp only [State.fuel, Worker.fuel, hn1] at hsum ⊢
    omega
  | handoff m ws r dn wg i n hw hm hr =>
    subst hm
    have hsum := sum_map_set Worker.fuel ws i _ Worker.finishing hw
    simp only [State.fuel, Worker.fuel, Main.fuel] at hsum ⊢
    omega
  | enqueue m ws r dn wg i n hw hm hr =>
    have hsum := sum_map_set Worker.fuel ws i _ Worker.finishing hw
    simp only [State.fuel, Worker.fuel] at hsum ⊢
    omega
  | finish m ws r dn wg i hw hv =>
    have hsum := sum_map_set Worker.fuel ws i _ Worker.exited hw
    simp only [State.fuel, Worker.fuel] at hsum ⊢
    omega
  | finishPanic m ws r dn wg i hw hv =>
    have hsum := sum_map_set Worker.fuel ws i _ Worker.panicked hw
    simp only [State.fuel, Worker.fuel] at hsum ⊢
    omega

theorem fuel_run (data : List Nat) (difficulty : Nat) (workers : Int) (sched : List Action)
    (s t : State) (hs : Inv data difficulty workers s)
    (h : run data difficulty workers s sched = some t) :
    t.fuel workers + sched.length ≤ s.fuel workers := by
  induction sched generalizing s with
  | nil =>
    simp only [run, Option.some.injEq] at h
    subst h; simp
  | cons a rest ih =>
    simp only [run] at h
    split at h
    · cases h
    · rename_i u hu
      have hT := step_trans _ _ _ _ _ _ hu
      have h1 := ih u (inv_step _ _ _ _ _ hs hT) h
      have h2 := fuel_step _ _ _ _ _ hs hT
      simp only [List.length_cons]
      omega

theorem fuel_Generate (data : List Nat) (difficulty : Nat) (workers : Int)
    (sched : List Action) (s : State) (h : Generate data difficulty workers sched = some s) :
    sched.length ≤ (start workers).fuel workers := by
  have := fuel_run _ _ _ sched _ _ (inv_start data difficulty workers)
    (Generate_run _ _ _ _ _ h).2
  omega

/-- From every state that satisfies the invariant some execution leads to a state in which
no goroutine can step. -/
theorem exists_terminal (data : List Nat) (difficulty : Nat) (workers : Int) (s : State)
    (hs : Inv data difficulty workers s) :
    ∃ sched t, run data difficulty workers s sched = some t ∧
      Terminal data difficulty workers t := by
  generalize hn : s.fuel workers = n
  induction n using Nat.strong_induction_on generalizing s with
  | _ n ih =>
    by_cases hT : Terminal data difficulty workers s
    · exact ⟨[], s, rfl, hT⟩
    · simp only [Terminal, not_forall] at hT
      obtain ⟨a, ha⟩ := hT
      obtain ⟨u, hu⟩ := Option.ne_none_iff_exists'.1 ha
      have hTr := step_trans _ _ _ _ _ _ hu
      have hlt := fuel_step _ _ _ _ _ hs hTr
      obtain ⟨sched, t, hrun, hterm⟩ :=
        ih (u.fuel workers) (hn ▸ hlt) u (inv_step _ _ _ _ _ hs hTr) rfl
      exact ⟨a :: sched, t, by simp [run, hu, hrun], hterm⟩

/-! ## States in which no goroutine can step -/

theorem stepWorker_running (data : List Nat) (difficulty : Nat) (workers : Int) (s : State)
    (i nonce stop : Nat) (buf : List Nat)
    (h : s.workers[i]? = some (Worker.running nonce stop buf)) :
    stepWorker data difficulty workers s i ≠ none := by
  unfold stepWorker
  rw [h]
  simp only
  split
  · split
    · simp
    · split
      · simp
      · split <;> simp
  · simp

theorem stepWorker_finishing (data : List Nat) (difficulty : Nat) (workers : Int) (s : State)
    (i : Nat) (h : s.workers[i]? = some Worker.finishing) :
    stepWorker data difficulty workers s i ≠ none := by
  unfold stepWorker
  rw [h]
  simp only
  split <;> simp

theorem stepWorker_sending (data : List Nat) (difficulty : Nat) (workers : Int) (s : State)
    (i n : Nat) (h : s.workers[i]? = some (Worker.sending n))
    (hn : stepWorker data difficulty workers s i = none) :
    ¬ (s.main = Main.receiving ∧ s.result = []) ∧
      ¬ s.result.length < (clampWorkers workers - 1).toNat := by
  unfold stepWorker at hn
  rw [h] at hn
  simp only at hn
  split at hn
  · cases hn
  · rename_i h1
    split at hn
    · cases hn
    · rename_i h2
      exact ⟨h1, h2⟩

theorem stepMain_none (data : List Nat) (workers : Int) (s : State)
    (hn : stepMain data workers s = none) :
    (s.main = Main.receiving ∧ s.result = []) ∨ (∃ n, s.main = Main.waiting n ∧ s.wg ≠ 0) ∨
      ∃ n, s.main = Main.returned n := by
  obtain ⟨m, ws, r, dn, wg⟩ := s
  cases m with
  | spawning i =>
    simp only [stepMain] at hn
    split at hn <;> cases hn
  | receiving =>
    cases r with
    | nil => exact Or.inl ⟨rfl, rfl⟩
    | cons n rest => simp [stepMain] at hn
  | closing n => simp [stepMain] at hn
  | waiting n =>
    simp only [stepMain] at hn
    split at hn
    · cases hn
    · rename_i h
      exact Or.inr (Or.inl ⟨n, rfl, h⟩)
  | returned n => exact Or.inr (Or.inr ⟨n, rfl⟩)

theorem le_sum_map {α : Type} (f : α → Nat) (l : List α) (i : Nat) (a : α)
    (h : l[i]? = some a) : f a ≤ (l.map f).sum := by
  induction l generalizing i with
  | nil => simp at h
  | cons x l ih =>
    cases i with
    | zero =>
      simp only [List.getElem?_cons_zero, Option.some.injEq] at h
      subst h
      simp
    | succ i =>
      simp only [List.getElem?_cons_succ] at h
      have := ih i h
      simp only [List.map_cons, List.sum_cons]
      omega

theorem sum_map_eq_length {α : Type} (f : α → Nat) (l : List α)
    (h : ∀ (j : Nat) (a : α), l[j]? = some a → f a = 1) : (l.map f).sum = l.length := by
  induction l with
  | nil => rfl
  | cons x l ih =>
    have hx : f x = 1 := h 0 x (by simp)
    have := ih (fun j a hj => h (j + 1) a (by simpa using hj))
    simp only [List.map_cons, List.sum_cons, List.length_cons]
    omega

theorem workers_length_le (data : List Nat) (difficulty : Nat) (workers : Int) (s : State)
    (hs : Inv data difficulty workers s) : (s.workers.length : Int) ≤ clampWorkers workers := by
  by_cases h : ∃ i, s.main = Main.spawning i
  · obtain ⟨i, hi⟩ := h
    obtain ⟨h1, h2⟩ := hs.spawning i hi
    omega
  · have := hs.spawned (fun i hi => h ⟨i, hi⟩)
    omega

theorem sum_map_le_length {α : Type} (f : α → Nat) (l : List α) (hle : ∀ a, f a ≤ 1) :
    (l.map f).sum ≤ l.length := by
  induction l with
  | nil => simp
  | cons x l ih =>
    have := hle x
    simp only [List.map_cons, List.sum_cons, List.length_cons]
    omega

theorem sum_map_lt_length {α : Type} (f : α → Nat) (l : List α) (hle : ∀ a, f a ≤ 1)
    (i : Nat) (a : α) (h : l[i]? = some a) (h0 : f a = 0) : (l.map f).sum < l.length := by
  induction l generalizing i with
  | nil => simp at h
  | cons x l ih =>
    simp only [List.map_cons, List.sum_cons, List.length_cons]
    cases i with
    | zero =>
      simp only [List.getElem?_cons_zero, Option.some.injEq] at h
      subst h
      have := sum_map_le_length f l hle
      omega
    | succ i =>
      simp only [List.getElem?_cons_succ] at h
      have := ih i h
      have := hle x
      omega

theorem ended_le_one (w : Worker) : w.ended ≤ 1 := by
  cases w <;> simp [Worker.ended]

/-! ## The counter of the wait group -/

theorem clampWorkers_le_maxInt32 (workers : Int) (hW : workers ≤ maxInt32) :
    clampWorkers workers ≤ 2 ^ 31 - 1 := by
  unfold maxInt32 at hW
  unfold clampWorkers
  split <;> omega

theorem noPanic_set (ws : List Worker) (i : Nat) (w : Worker) (hw : w ≠ Worker.panicked)
    (h : ∀ (j : Nat), ws[j]? ≠ some Worker.panicked) :
    ∀ (j : Nat), (ws.set i w)[j]? ≠ some Worker.panicked := by
  intro j hj
  rcases getElem?_set_some hj with ⟨-, e⟩ | ⟨-, hj2⟩
  · exact hw e.symm
  · exact h j hj2

/-- While a started worker has not ended, the counter of the wait group is positive. -/
theorem wg_pos (data : List Nat) (difficulty : Nat) (workers : Int) (s : State)
    (hs : Inv data difficulty workers s) (hg : WgInv workers s)
    (j : Nat) (w : Worker) (hw : s.workers[j]? = some w) (hne : w ≠ Worker.exited) :
    0 < s.wg := by
  have h0 : w.ended = 0 := by
    cases w <;> simp [Worker.ended] at hne ⊢
  have hlt := sum_map_lt_length Worker.ended s.workers ended_le_one j w hw h0
  have hwg := hg.counter
  have hlen := workers_length_le _ _ _ _ hs
  omega

theorem wg_start (workers : Int) (hW : workers ≤ maxInt32) : WgInv workers (start workers) := by
  have h1 := clampWorkers_le_maxInt32 workers hW
  have h2 : 1 ≤ clampWorkers workers := by
    unfold clampWorkers
    split <;> omega
  constructor
  · simp only [start, wgAdd, List.map_nil, List.sum_nil]
    rw [toInt32_eq _ (by omega) (by omega)]
    omega
  · intro j h
    simp [start] at h

theorem wg_step (data : List Nat) (difficulty : Nat) (workers : Int) (s t : State)
    (hW : workers ≤ maxInt32) (hs : Inv data difficulty workers s) (hg : WgInv workers s)
    (ht : Trans data difficulty workers s t) : WgInv workers t := by
  have hpos := wg_pos _ _ _ _ hs hg
  have hlen := workers_length_le _ _ _ _ hs
  have hmax := clampWorkers_le_maxInt32 workers hW
  obtain ⟨hc, hp⟩ := hg
  cases ht with
  | spawn m ws r dn wg i hm hi =>
    constructor
    · simpa [Worker.ended] using hc
    · intro j hj
      rcases getElem?_snoc_some hj with ⟨-, hj2⟩ | ⟨-, e⟩
      · exact hp j hj2
      · cases e
  | spawned m ws r dn wg i hm hi => exact ⟨hc, hp⟩
  | receive m ws r dn wg n rest hm hr => exact ⟨hc, hp⟩
  | close m ws r dn wg n hm => exact ⟨hc, hp⟩
  | wait m ws r dn wg n hm hz => exact ⟨hc, hp⟩
  | loopEnd m ws r dn wg i nonce stop buf hw hge =>
    have hsum := sum_map_set Worker.ended ws i _ Worker.finishing hw
    simp only [Worker.ended, add_zero] at hsum
    refine ⟨?_, noPanic_set ws i _ (by simp) hp⟩
    show wg + ((List.map Worker.ended (ws.set i Worker.finishing)).sum : Int) = _
    rw [hsum]; exact hc
  | cancelled m ws r dn wg i nonce stop buf hw hlt hdn =>
    have hsum := sum_map_set Worker.ended ws i _ Worker.finishing hw
    simp only [Worker.ended, add_zero] at hsum
    refine ⟨?_, noPanic_set ws i _ (by simp) hp⟩
    show wg + ((List.map Worker.ended (ws.set i Worker.finishing)).sum : Int) = _
    rw [hsum]; exact hc
  | panic m ws r dn wg i nonce stop buf hw hlt hdn hh =>
    exfalso
    obtain ⟨hl, htk, -⟩ := hs.worker i _ hw
    rw [hashNonce_value data buf nonce hl htk] at hh
    cases hh
  | found m ws r dn wg i nonce stop buf buf2 value hw hlt hdn hh hv =>
    have hsum := sum_map_set Worker.ended ws i _ (Worker.sending nonce) hw
    simp only [Worker.ended, add_zero] at hsum
    refine ⟨?_, noPanic_set ws i _ (by simp) hp⟩
    show wg + ((List.map Worker.ended (ws.set i (Worker.sending nonce))).sum : Int) = _
    rw [hsum]; exact hc
  | next m ws r dn wg i nonce stop buf buf2 value hw hlt hdn hh hv =>
    have hsum := sum_map_set Worker.ended ws i _
      (Worker.running ((nonce + 1) % 2 ^ 64) stop buf2) hw
    simp only [Worker.ended, add_zero] at hsum
    refine ⟨?_, noPanic_set ws i _ (by simp) hp⟩
    show wg + ((List.map Worker.ended
      (ws.set i (Worker.running ((nonce + 1) % 2 ^ 64) stop buf2))).sum : Int) = _
    rw [hsum]; exact hc
  | handoff m ws r dn wg i n hw hm hr =>
    have hsum := sum_map_set Worker.ended ws i _ Worker.finishing hw
    simp only [Worker.ended, add_zero] at hsum
    refine ⟨?_, noPanic_set ws i _ (by simp) hp⟩
    show wg + ((List.map Worker.ended (ws.set i Worker.finishing)).sum : Int) = _
    rw [hsum]; exact hc
  | enqueue m ws r dn wg i n hw hm hr =>
    have hsum := sum_map_set Worker.ended ws i _ Worker.finishing hw
    simp only [Worker.ended, add_zero] at hsum
    refine ⟨?_, noPanic_set ws i _ (by simp) hp⟩
    show wg + ((List.map Worker.ended (ws.set i Worker.finishing)).sum : Int) = _
    rw [hsum]; exact hc
  | finish m ws r dn wg i hw hv =>
    have hsum := sum_map_set Worker.ended ws i _ Worker.exited hw
    simp only [Worker.ended, add_zero] at hsum
    have h1 : 0 < wg := hpos i _ hw (by simp)
    have hc2 : wg + ((List.map Worker.ended ws).sum : Int) = clampWorkers workers := hc
    have hadd : wgAdd wg (-1) = wg - 1 := by
      unfold wgAdd
      rw [toInt32_eq _ (by omega) (by omega)]
      omega
    refine ⟨?_, noPanic_set ws i _ (by simp) hp⟩
    show wgAdd wg (-1) + ((List.map Worker.ended (ws.set i Worker.exited)).sum : Int) = _
    rw [hadd]
    generalize (List.map Worker.ended (ws.set i Worker.exited)).sum = a at *
    generalize (List.map Worker.ended ws).sum = b at *
    omega
  | finishPanic m ws r dn wg i hw hv =>
    exfalso
    have h1 : 0 < wg := hpos i _ hw (by simp)
    have hc2 : wg + ((List.map Worker.ended ws).sum : Int) = clampWorkers workers := hc
    have hadd : wgAdd wg (-1) = wg - 1 := by
      unfold wgAdd
      rw [toInt32_eq _ (by omega) (by omega)]
      omega
    rw [hadd] at hv
    omega

theorem wg_run (data : List Nat) (difficulty : Nat) (workers : Int) (sched : List Action)
    (s t : State) (hW : workers ≤ maxInt32) (hs : Inv data difficulty workers s)
    (hg : WgInv workers s) (h : run data difficulty workers s sched = some t) :
    WgInv workers t := by
  induction sched generalizing s with
  | nil =>
    simp only [run, Option.some.injEq] at h
    subst h; exact hg
  | cons a rest ih =>
    simp only [run] at h
    split at h
    · cases h
    · rename_i u hu
      have hT := step_trans _ _ _ _ _ _ hu
      exact ih u (inv_step _ _ _ _ _ hs hT) (wg_step _ _ _ _ _ hW hs hg hT) h

/-- For a worker count that fits the 32-bit counter, in every reachable state the counter is
the number of workers that have not ended, and no worker has panicked. -/
theorem wg_Generate (data : List Nat) (difficulty : Nat) (workers : Int) (sched : List Action)
    (s : State) (hW : workers ≤ maxInt32)
    (h : Generate data difficulty workers sched = some s) : WgInv workers s :=
  wg_run _ _ _ sched _ _ hW (inv_start _ _ _) (wg_start workers hW) (Generate_run _ _ _ _ _ h).2

/-! ## States in which no goroutine can step, continued -/

/-- In a state in which no goroutine can step, no worker is blocked on its send. -/
theorem terminal_no_sender (data : List Nat) (difficulty : Nat) (workers : Int) (s : State)
    (hs : Inv data difficulty workers s) (hT : Terminal data difficulty workers s) :
    ∀ (j n : Nat), s.workers[j]? ≠ some (Worker.sending n) := by
  intro j n hw
  have hj := hT (Action.worker j)
  simp only [step] at hj
  obtain ⟨h1, h2⟩ := stepWorker_sending _ _ _ _ _ _ hw hj
  have hm := hT Action.main
  simp only [step] at hm
  have hp := le_sum_map Worker.pending s.workers j _ hw
  simp only [Worker.pending] at hp
  have hc := hs.count
  rcases stepMain_none _ _ _ hm with ⟨hr, he⟩ | ⟨n, hw2, -⟩ | ⟨n, hr⟩
  · exact h1 ⟨hr, he⟩
  · have hsp := hs.spawned (fun i h => by rw [hw2] at h; cases h)
    simp only [hw2, Main.got, Option.isSome_some, if_true] at hc
    omega
  · have hsp := hs.spawned (fun i h => by rw [hr] at h; cases h)
    simp only [hr, Main.got, Option.isSome_some, if_true] at hc
    omega

/-- In a state in which no goroutine can step, every started worker has ended, when the
worker count fits the counter of the wait group. -/
theorem terminal_exited (data : List Nat) (difficulty : Nat) (workers : Int) (s : State)
    (hs : Inv data difficulty workers s) (hg : WgInv workers s)
    (hT : Terminal data difficulty workers s) :
    ∀ (j : Nat) (w : Worker), s.workers[j]? = some w → w = Worker.exited := by
  intro j w hw
  have hj := hT (Action.worker j)
  simp only [step] at hj
  cases w with
  | running nonce stop buf => exact absurd hj (stepWorker_running _ _ _ _ _ _ _ _ hw)
  | finishing => exact absurd hj (stepWorker_finishing _ _ _ _ _ hw)
  | exited => rfl
  | panicked => exact absurd hw (hg.noPanic j)
  | sending n => exact absurd hw (terminal_no_sender _ _ _ _ hs hT j n)

/-- A state in which no goroutine can step: either the caller has returned, or it waits at
its receive, the channel is empty and no value was ever published. -/
theorem terminal_main (data : List Nat) (difficulty : Nat) (workers : Int) (s : State)
    (hs : Inv data difficulty workers s) (hg : WgInv workers s)
    (hT : Terminal data difficulty workers s) :
    (s.main = Main.receiving ∧ s.result = []) ∨ ∃ n, s.main = Main.returned n := by
  have hm := hT Action.main
  simp only [step] at hm
  rcases stepMain_none _ _ _ hm with h | ⟨n, hw, hne⟩ | h
  · exact Or.inl h
  · exfalso
    have hsp := hs.spawned (fun i h => by rw [hw] at h; cases h)
    have hall := sum_map_eq_length Worker.ended s.workers (fun j a hj => by
      rw [terminal_exited _ _ _ _ hs hg hT j a hj]; rfl)
    have hwg := hg.counter
    rw [hall] at hwg
    omega
  · exact Or.inr h

/-- When the range of some worker holds a valid nonce, the caller has returned in every state
in which no goroutine can step. -/
theorem terminal_returned (data : List Nat) (difficulty : Nat) (workers : Int) (s : State)
    (hs : Inv data difficulty workers s) (hg : WgInv workers s)
    (hT : Terminal data difficulty workers s)
    (j m : Nat) (hj : (j : Int) < clampWorkers workers) (h1 : rangeStart workers j ≤ m)
    (h2 : m < rangeEnd workers j) (hv : Valid data difficulty m) :
    ∃ n, s.main = Main.returned n := by
  rcases terminal_main _ _ _ _ hs hg hT with ⟨hr, he⟩ | h
  · exfalso
    have hsp := hs.spawned (fun i h => by rw [hr] at h; cases h)
    have hjl : j < s.workers.length := by omega
    have hw : s.workers[j]? = some s.workers[j] := List.getElem?_eq_getElem hjl
    have hex := terminal_exited _ _ _ _ hs hg hT j _ hw
    rw [hex] at hw
    have hinv := hs.worker j _ hw
    simp only [WorkerInv, State.published, hr, he, Main.got] at hinv
    rcases hinv with (h | h) | h
    · exact h rfl
    · cases h
    · exact h m h1 h2 hv
  · exact h

/-! ## Arithmetic of the ranges -/

theorem clampWorkers_pos (workers : Int) : 1 ≤ clampWorkers workers := by
  unfold clampWorkers
  split <;> omega

theorem clampWorkers_le (workers : Int) (hw : workers ≤ maxInt) :
    clampWorkers workers ≤ maxInt := by
  unfold clampWorkers
  split
  · unfold maxInt; omega
  · exact hw

theorem delta_eq (workers : Int) (hw : workers ≤ maxInt) :
    delta workers = maxUint64 / (clampWorkers workers).toNat := by
  have h1 := clampWorkers_pos workers
  have h2 := clampWorkers_le workers hw
  unfold maxInt at h2
  unfold delta
  rw [Nat.mod_eq_of_lt (by omega)]

theorem delta_ge (workers : Int) (hw : workers ≤ maxInt) : 2 ≤ delta workers := by
  have h1 := clampWorkers_pos workers
  have h2 := clampWorkers_le workers hw
  unfold maxInt at h2
  rw [delta_eq workers hw, Nat.le_div_iff_mul_le (by omega)]
  unfold maxUint64
  omega

theorem mul_delta_le (workers : Int) (hw : workers ≤ maxInt) :
    (clampWorkers workers).toNat * delta workers ≤ maxUint64 := by
  rw [delta_eq workers hw]
  exact Nat.mul_div_le _ _

theorem rangeStart_eq (workers : Int) (hw : workers ≤ maxInt) (j : Nat)
    (hj : (j : Int) < clampWorkers workers) : rangeStart workers j = j * delta workers := by
  have h2 := clampWorkers_le workers hw
  have h3 := mul_delta_le workers hw
  have h4 : (j + 1) * delta workers ≤ (clampWorkers workers).toNat * delta workers :=
    Nat.mul_le_mul_right _ (by omega)
  unfold maxInt at h2
  unfold maxUint64 at h3
  unfold rangeStart
  rw [Nat.mod_eq_of_lt (show j < 2 ^ 64 by omega)]
  apply Nat.mod_eq_of_lt
  rw [Nat.add_mul] at h4
  omega

theorem rangeEnd_eq (workers : Int) (hw : workers ≤ maxInt) (j : Nat)
    (hj : (j : Int) < clampWorkers workers) :
    rangeEnd workers j = j * delta workers + delta workers := by
  have h3 := mul_delta_le workers hw
  have h4 : (j + 1) * delta workers ≤ (clampWorkers workers).toNat * delta workers :=
    Nat.mul_le_mul_right _ (by omega)
  unfold maxUint64 at h3
  unfold rangeEnd
  rw [rangeStart_eq workers hw j hj]
  apply Nat.mod_eq_of_lt
  rw [Nat.add_mul] at h4
  omega

theorem rangeEnd_le (workers : Int) (hw : workers ≤ maxInt) (j : Nat)
    (hj : (j : Int) < clampWorkers workers) :
    rangeEnd workers j ≤ (clampWorkers workers).toNat * delta workers := by
  have h4 : (j + 1) * delta workers ≤ (clampWorkers workers).toNat * delta workers :=
    Nat.mul_le_mul_right _ (by omega)
  rw [rangeEnd_eq workers hw j hj]
  rw [Nat.add_mul] at h4
  omega

/-- Every nonce below `W * delta` lies in the range of exactly the worker `n / delta`. -/
theorem exists_range (workers : Int) (hw : workers ≤ maxInt) (n : Nat)
    (hn : n < (clampWorkers workers).toNat * delta workers) :
    ∃ j : Nat, (j : Int) < clampWorkers workers ∧ rangeStart workers j ≤ n ∧
      n < rangeEnd workers j := by
  have hd := delta_ge workers hw
  have hpos : 0 < delta workers := by omega
  have hj : n / delta workers < (clampWorkers workers).toNat :=
    (Nat.div_lt_iff_lt_mul hpos).2 hn
  have hj2 : ((n / delta workers : Nat) : Int) < clampWorkers workers := by
    generalize n / delta workers = q at hj
    omega
  refine ⟨n / delta workers, hj2, ?_, ?_⟩
  · rw [rangeStart_eq workers hw _ hj2]
    exact Nat.div_mul_le_self _ _
  · rw [rangeEnd_eq workers hw _ hj2]
    have h5 := Nat.div_add_mod n (delta workers)
    have h6 := Nat.mod_lt n hpos
    rw [Nat.mul_comm] at h5
    generalize n / delta workers * delta workers = a at h5 ⊢
    generalize n % delta workers = b at h5 h6
    omega

/-! ## Auxiliary facts for the main statements -/

theorem Valid_iff_Difficulty (data : List Nat) (difficulty n : Nat) :
    Valid data difficulty n ↔ ∃ v, Difficulty data n = some v ∧ difficulty ≤ v := by
  rw [Valid_iff, Difficulty_eq]
  constructor
  · intro h; exact ⟨_, rfl, h⟩
  · rintro ⟨v, hv, h⟩
    cases hv; exact h

theorem returns_iff (s : State) (n : Nat) : s.returns = some n ↔ s.main = Main.returned n := by
  obtain ⟨m, ws, r, dn, wg⟩ := s
  cases m <;> simp [State.returns]

theorem returns_got (s : State) (n : Nat) (h : s.returns = some n) : s.main.got = some n := by
  rw [returns_iff] at h
  rw [h]; rfl

theorem FirstIn_unique (data : List Nat) (difficulty : Nat) (workers : Int) (j n n' : Nat)
    (h : FirstIn data difficulty workers j n) (h' : FirstIn data difficulty workers j n') :
    n = n' := by
  obtain ⟨h1, -, h3, h4⟩ := h
  obtain ⟨h1', -, h3', h4'⟩ := h'
  by_contra hne
  rcases Nat.lt_or_gt_of_ne hne with hlt | hlt
  · exact h4' n h1 hlt h3
  · exact h4 n' h1' hlt h3'

/-- A range that holds a valid nonce has a first valid nonce. -/
theorem exists_FirstIn (data : List Nat) (difficulty : Nat) (workers : Int) (j m : Nat)
    (h1 : rangeStart workers j ≤ m) (h2 : m < rangeEnd workers j)
    (hv : Valid data difficulty m) :
    ∃ n, n ≤ m ∧ FirstIn data difficulty workers j n := by
  classical
  have hex : ∃ k, rangeStart workers j ≤ k ∧ Valid data difficulty k := ⟨m, h1, hv⟩
  refine ⟨Nat.find hex, Nat.find_min' hex ⟨h1, hv⟩, (Nat.find_spec hex).1, ?_,
    (Nat.find_spec hex).2, ?_⟩
  · exact lt_of_le_of_lt (Nat.find_min' hex ⟨h1, hv⟩) h2
  · intro k hk1 hk2 hkv
    exact Nat.find_min hex hk2 ⟨hk1, hkv⟩

theorem step_congr (data : List Nat) (difficulty : Nat) (w w' : Int)
    (h : clampWorkers w = clampWorkers w') (s : State) (a : Action) :
    step data difficulty w s a = step data difficulty w' s a := by
  cases a <;> simp only [step, stepMain, stepWorker, rangeStart, rangeEnd, delta, h]

theorem run_congr (data : List Nat) (difficulty : Nat) (w w' : Int)
    (h : clampWorkers w = clampWorkers w') (s : State) (sched : List Action) :
    run data difficulty w s sched = run data difficulty w' s sched := by
  induction sched generalizing s with
  | nil => rfl
  | cons a rest ih =>
    simp only [run, step_congr data difficulty w w' h]
    split
    · rfl
    · exact ih _

theorem Generate_congr (data : List Nat) (difficulty : Nat) (w w' : Int)
    (h : clampWorkers w = clampWorkers w') (sched : List Action) :
    Generate data difficulty w sched = Generate data difficulty w' sched := by
  simp only [Generate, setup, start, h, run_congr data difficulty w w' h]

/-- The value the caller received is the first valid nonce of the range of a worker. -/
theorem got_FirstIn (data : List Nat) (difficulty : Nat) (workers : Int) (sched : List Action)
    (s : State) (n : Nat) (h : Generate data difficulty workers sched = some s)
    (hn : s.main.got = some n) :
    ∃ j : Nat, (j : Int) < clampWorkers workers ∧ FirstIn data difficulty workers j n := by
  have hs := inv_Generate _ _ _ _ _ h
  obtain ⟨j, hj, hf⟩ := hs.got n hn
  have := workers_length_le _ _ _ _ hs
  exact ⟨j, by omega, hf⟩

/-- With a valid nonce in the range of some worker, and a worker count that fits the counter
of the wait group, `Generate` returns: some execution returns, and every execution that
cannot be continued has returned. -/
theorem returns_of_valid (data : List Nat) (difficulty : Nat) (workers : Int)
    (hW : workers ≤ maxInt32)
    (j m : Nat) (hj : (j : Int) < clampWorkers workers) (h1 : rangeStart workers j ≤ m)
    (h2 : m < rangeEnd workers j) (hv : Valid data difficulty m) :
    (∃ sched s n, Generate data difficulty workers sched = some s ∧ s.returns = some n) ∧
    ∀ sched s, Generate data difficulty workers sched = some s →
      Terminal data difficulty workers s → ∃ n, s.returns = some n := by
  have key : ∀ sched s, Generate data difficulty workers sched = some s →
      Terminal data difficulty workers s → ∃ n, s.returns = some n := by
    intro sched s h hT
    obtain ⟨n, hn⟩ := terminal_returned _ _ _ _ (inv_Generate _ _ _ _ _ h)
      (wg_Generate _ _ _ _ _ hW h) hT j m hj h1 h2 hv
    exact ⟨n, (returns_iff s n).2 hn⟩
  refine ⟨?_, key⟩
  obtain ⟨sched, t, hrun, hT⟩ := exists_terminal data difficulty workers (start workers)
    (inv_start _ _ _)
  have hgen : Generate data difficulty workers sched = some t := by
    rw [Generate_of_setup _ _ _ _ (setup_ok workers hW)]
    exact hrun
  obtain ⟨n, hn⟩ := key sched t hgen hT
  exact ⟨sched, t, n, hgen, hn⟩

/-! ## The claims -/

/-- C1. Round trip: in every state an execution of `Generate(data, difficulty, workers)` can
reach, for every payload, difficulty and worker count (zero and negative included), every
nonce buffered in the result channel, every nonce a worker is about to send, the nonce the
caller has received and the nonce the caller returns satisfy `Verify`. -/
theorem Generate_roundtrip (data : List Nat) (difficulty : Nat) (workers : Int)
    (sched : List Action) (s : State)
    (h : Generate data difficulty workers sched = some s) :
    (∀ n ∈ s.result, Verify data difficulty n = some true) ∧
    (∀ (j n : Nat), s.workers[j]? = some (Worker.sending n) →
      Verify data difficulty n = some true) ∧
    (∀ n, s.main.got = some n → Verify data difficulty n = some true) ∧
    ∀ n, s.returns = some n → Verify data difficulty n = some true := by
  have hs := inv_Generate _ _ _ _ _ h
  refine ⟨?_, ?_, ?_, ?_⟩
  · intro n hn
    obtain ⟨j, -, hf⟩ := hs.buffered n hn
    exact hf.2.2.1
  · intro j n hw
    have hf : FirstIn data difficulty workers j n := hs.worker j _ hw
    exact hf.2.2.1
  · intro n hn
    obtain ⟨j, -, hf⟩ := hs.got n hn
    exact hf.2.2.1
  · intro n hn
    obtain ⟨j, -, hf⟩ := hs.got n (returns_got s n hn)
    exact hf.2.2.1

/-- Witness of C1: with payload {1,2,3}, difficulty 2^63 and -5 workers (clamped to one), the
schedule below returns nonce 1, and `Verify` accepts it. -/
theorem Generate_roundtrip_witness :
    (Generate [1, 2, 3] (2 ^ 63) (-5)
      [Action.main, Action.main, Action.worker 0, Action.worker 0, Action.worker 0,
        Action.main, Action.worker 0, Action.main]).bind State.returns = some 1 ∧
    Verify [1, 2, 3] (2 ^ 63) 1 = some true :=
  ⟨by decide,
   (Generate_roundtrip [1, 2, 3] (2 ^ 63) (-5)
      [Action.main, Action.main, Action.worker 0, Action.worker 0, Action.worker 0,
        Action.main, Action.worker 0, Action.main]
      (State.mk (Main.returned 1) [Worker.exited] [] true 0) (by decide)).2.2.2 1 rfl⟩

/-- C2. `Verify(data, d, n)` never panics, it is true exactly when `Difficulty(data, n)` is
at least `d` and false exactly when `Difficulty(data, n)` is below `d`; the compared value
is an unsigned 64-bit number. -/
theorem Verify_iff (data : List Nat) (d n : Nat) :
    (Verify data d n = some true ↔ ∃ v, Difficulty data n = some v ∧ d ≤ v) ∧
    (Verify data d n = some false ↔ ∃ v, Difficulty data n = some v ∧ v < d) ∧
    (∃ v, Difficulty data n = some v ∧ v < 2 ^ 64 ∧ Verify data d n = some (decide (v ≥ d))) := by
  have hle := mappedValue_le data n
  unfold maxUint64 at hle
  refine ⟨?_, ?_, ⟨mappedValue data n, Difficulty_eq data n, by omega, Verify_eq data d n⟩⟩
  · exact Valid_iff_Difficulty data d n
  · rw [Verify_eq, Difficulty_eq]
    constructor
    · intro h
      refine ⟨_, rfl, ?_⟩
      simpa using h
    · rintro ⟨v, hv, h⟩
      cases hv
      simpa using h

/-- C3. `Difficulty(data, n)` never panics; the buffer it hashes is the payload followed by
the eight big-endian bytes of the nonce and has length `len(data) + 8`; its value is the
big-endian number formed by the first eight bytes of the SHA-256 digest of that buffer, an
unsigned 64-bit number. -/
theorem Difficulty_spec (data : List Nat) (n : Nat) :
    Difficulty data n = some (mappedValue data n) ∧
    hashNonce (copy (make (data.length + 8)) data) data.length n =
      some (data ++ be64 n, mappedValue data n) ∧
    (data ++ be64 n).length = data.length + 8 ∧
    Uint64 (Sum256 (data ++ be64 n)) = some (mappedValue data n) ∧
    mappedValue data n ≤ maxUint64 := by
  have hlen : (copy (make (data.length + 8)) data).length = data.length + 8 := by
    simp [copy_make]
  have ht : (copy (make (data.length + 8)) data).take data.length = data := by
    simp [copy_make]
  have hv := hashNonce_value data _ n hlen ht
  refine ⟨Difficulty_eq data n, hv, by simp [be64_length], ?_, mappedValue_le data n⟩
  obtain ⟨v, h1, h2⟩ := hashNonce_eq _ data.length n hlen
  rw [ht] at h1 h2
  rw [hv] at h1
  simp only [Option.some.injEq, Prod.mk.injEq, true_and] at h1
  rw [h2, h1]

/-- C6. Golden vectors for difficulty 0xffffffc000000000: for payload {1,2,3} nonce 147372695
verifies and its neighbours 147372694 and 147372696 do not; for the empty payload nonce
3593662 verifies and its neighbours 3593661 and 3593663 do not. -/
theorem Verify_golden :
    Verify [1, 2, 3] 0xffffffc000000000 147372695 = some true ∧
    Verify [1, 2, 3] 0xffffffc000000000 147372694 = some false ∧
    Verify [1, 2, 3] 0xffffffc000000000 147372696 = some false ∧
    Verify [] 0xffffffc000000000 3593662 = some true ∧
    Verify [] 0xffffffc000000000 3593661 = some false ∧
    Verify [] 0xffffffc000000000 3593663 = some false := by
  refine ⟨?_, ?_, ?_, ?_, ?_, ?_⟩ <;> decide

/-- C7. Difficulty 0 is satisfied by every nonce, for every payload. -/
theorem Verify_zero (data : List Nat) (n : Nat) : Verify data 0 n = some true := by
  simp [Verify_eq]

/-- C8. `Verify(data, MaxUint64, n)` is true exactly when `Difficulty(data, n)` is
`MaxUint64`. -/
theorem Verify_max (data : List Nat) (n : Nat) :
    Verify data maxUint64 n = some true ↔ Difficulty data n = some maxUint64 := by
  have hle := mappedValue_le data n
  rw [Verify_eq, Difficulty_eq]
  simp only [Option.some.injEq, decide_eq_true_eq, ge_iff_le]
  omega

/-- C4. Worker-count clamp: for a worker count below one, `Generate` behaves under every
schedule exactly as with one worker; the caller starts a single worker that scans
`[0, MaxUint64)`, no execution ever has more than one worker, and any two values returned by
the two calls are the same nonce. -/
theorem Generate_clamp (data : List Nat) (difficulty : Nat) (workers : Int)
    (hw : workers < 1) :
    (∀ sched, Generate data difficulty workers sched = Generate data difficulty 1 sched) ∧
    Generate data difficulty workers [Action.main, Action.main] =
      some (State.mk Main.receiving
        [Worker.running 0 maxUint64 (copy (make (data.length + 8)) data)] [] false 1) ∧
    (∀ sched s, Generate data difficulty workers sched = some s → s.workers.length ≤ 1) ∧
    ∀ sched s n sched' s' n', Generate data difficulty workers sched = some s →
      s.returns = some n → Generate data difficulty 1 sched' = some s' →
      s'.returns = some n' → n = n' := by
  have hc : clampWorkers workers = clampWorkers 1 := by
    simp [clampWorkers, hw]
  have hc1 : clampWorkers 1 = 1 := by decide
  have hall := Generate_congr data difficulty workers 1 hc
  refine ⟨hall, ?_, ?_, ?_⟩
  · rw [hall]
    have h0 : rangeStart 1 0 = 0 := by decide
    have h1 : rangeEnd 1 0 = maxUint64 := by decide
    have hwg : wgAdd 0 1 = 1 := by decide
    rw [Generate_of_setup _ _ _ _ (setup_ok 1 (by decide))]
    simp [run, step, stepMain, start, hc1, h0, h1, hwg]
  · intro sched s h
    have := workers_length_le _ _ _ _ (inv_Generate _ _ _ _ _ h)
    omega
  · intro sched s n sched' s' n' h hn h' hn'
    rw [hall] at h
    obtain ⟨j, hj, hf⟩ := got_FirstIn _ _ _ _ _ n h (returns_got s n hn)
    obtain ⟨j', hj', hf'⟩ := got_FirstIn _ _ _ _ _ n' h' (returns_got s' n' hn')
    have e : j = 0 := by omega
    have e' : j' = 0 := by omega
    subst e e'
    exact FirstIn_unique _ _ _ _ _ _ hf hf'

/-- Witness of C4: with zero workers the caller starts one worker on `[0, MaxUint64)`. -/
theorem Generate_clamp_witness :
    Generate [] 0 0 [Action.main, Action.main] =
      some (State.mk Main.receiving
        [Worker.running 0 maxUint64 (copy (make 8) [])] [] false 1) :=
  (Generate_clamp [] 0 0 (by decide)).2.1

/-- C5, amended. For a clamped worker count of at most `2^31 - 1`, for which neither
`make(chan uint64, workers-1)` nor `wg.Add(workers)` panics and the 32-bit counter of the
wait group is exact: some execution of `Generate` returns exactly when some nonce below
`W * delta` has a difficulty of at least `d`; every execution is finite; when such a nonce
exists every execution that cannot be continued has returned; when none exists, no
execution publishes a value, panics or returns, and an execution that cannot be continued
ends with all `W` workers ended and the caller waiting at its receive; for `d = 0` every
execution that cannot be continued has returned. -/
theorem Generate_returns_iff (data : List Nat) (d : Nat) (workers : Int)
    (hW : workers ≤ maxInt32) :
    ((∃ sched s n, Generate data d workers sched = some s ∧ s.returns = some n) ↔
      ∃ n v, n < (clampWorkers workers).toNat * delta workers ∧
        Difficulty data n = some v ∧ d ≤ v) ∧
    (∀ sched s, Generate data d workers sched = some s →
      sched.length ≤ (start workers).fuel workers) ∧
    ((∃ n v, n < (clampWorkers workers).toNat * delta workers ∧
        Difficulty data n = some v ∧ d ≤ v) →
      ∀ sched s, Generate data d workers sched = some s → Terminal data d workers s →
        ∃ n, s.returns = some n) ∧
    ((¬ ∃ n v, n < (clampWorkers workers).toNat * delta workers ∧
        Difficulty data n = some v ∧ d ≤ v) →
      ∀ sched s, Generate data d workers sched = some s →
        s.result = [] ∧ (∀ (j n : Nat), s.workers[j]? ≠ some (Worker.sending n)) ∧
        (∀ j : Nat, s.workers[j]? ≠ some Worker.panicked) ∧ s.returns = none ∧
        (Terminal data d workers s → s.main = Main.receiving ∧
          (s.workers.length : Int) = clampWorkers workers ∧
          ∀ (j : Nat) (w : Worker), s.workers[j]? = some w → w = Worker.exited)) ∧
    (d = 0 → ∀ sched s, Generate data d workers sched = some s → Terminal data d workers s →
      ∃ n, s.returns = some n) := by
  have hw : workers ≤ maxInt := by
    unfold maxInt32 at hW
    unfold maxInt
    omega
  have hsol : (∃ n v, n < (clampWorkers workers).toNat * delta workers ∧
      Difficulty data n = some v ∧ d ≤ v) →
      ∃ j m : Nat, (j : Int) < clampWorkers workers ∧ rangeStart workers j ≤ m ∧
        m < rangeEnd workers j ∧ Valid data d m := by
    rintro ⟨n, v, hn, hv, hd⟩
    obtain ⟨j, hj, h1, h2⟩ := exists_range workers hw n hn
    exact ⟨j, n, hj, h1, h2, (Valid_iff_Difficulty data d n).2 ⟨v, hv, hd⟩⟩
  have hfirst : ∀ (j n : Nat), (j : Int) < clampWorkers workers →
      FirstIn data d workers j n →
      ∃ n v, n < (clampWorkers workers).toNat * delta workers ∧
        Difficulty data n = some v ∧ d ≤ v := by
    intro j n hj hf
    obtain ⟨v, hv, hd⟩ := (Valid_iff_Difficulty data d n).1 hf.2.2.1
    exact ⟨n, v, lt_of_lt_of_le hf.2.1 (rangeEnd_le workers hw j hj), hv, hd⟩
  have hmust : (∃ n v, n < (clampWorkers workers).toNat * delta workers ∧
      Difficulty data n = some v ∧ d ≤ v) →
      ∀ sched s, Generate data d workers sched = some s → Terminal data d workers s →
        ∃ n, s.returns = some n := by
    intro h
    obtain ⟨j, m, hj, h1, h2, hv⟩ := hsol h
    exact (returns_of_valid data d workers hW j m hj h1 h2 hv).2
  refine ⟨⟨?_, ?_⟩, ?_, hmust, ?_, ?_⟩
  · rintro ⟨sched, s, n, h, hn⟩
    obtain ⟨j, hj, hf⟩ := got_FirstIn _ _ _ _ _ n h (returns_got s n hn)
    exact hfirst j n hj hf
  · intro h
    obtain ⟨j, m, hj, h1, h2, hv⟩ := hsol h
    exact (returns_of_valid data d workers hW j m hj h1 h2 hv).1
  · intro sched s h
    exact fuel_Generate _ _ _ _ _ h
  · intro hno sched s h
    have hs := inv_Generate _ _ _ _ _ h
    have hg := wg_Generate _ _ _ _ _ hW h
    have hlen := workers_length_le _ _ _ _ hs
    have hgot : s.main.got = none := by
      cases hg2 : s.main.got with
      | none => rfl
      | some n =>
        obtain ⟨j, hj, hf⟩ := got_FirstIn _ _ _ _ _ n h hg2
        exact absurd (hfirst j n hj hf) hno
    refine ⟨?_, ?_, hg.noPanic, ?_, ?_⟩
    · cases hr : s.result with
      | nil => rfl
      | cons n rest =>
        obtain ⟨j, hj, hf⟩ := hs.buffered n (by rw [hr]; exact List.mem_cons_self _ _)
        exact absurd (hfirst j n (by omega) hf) hno
    · intro j n hw2
      have hj := lt_length_of_getElem? hw2
      exact hno (hfirst j n (by omega) (hs.worker j _ hw2))
    · cases hr : s.returns with
      | none => rfl
      | some n =>
        rw [returns_got s n hr] at hgot
        cases hgot
    · intro hT
      rcases terminal_main _ _ _ _ hs hg hT with ⟨hm, -⟩ | ⟨n, hm⟩
      · exact ⟨hm, hs.spawned (fun i hi => by rw [hm] at hi; cases hi),
          terminal_exited _ _ _ _ hs hg hT⟩
      · rw [hm] at hgot
        cases hgot
  · intro hd
    subst hd
    apply hmust
    have h1 := clampWorkers_pos workers
    have h2 := delta_ge workers hw
    refine ⟨0, mappedValue data 0, ?_, Difficulty_eq data 0, Nat.zero_le _⟩
    apply Nat.mul_pos <;> omega

/-- Witness of C5: with payload {1,2,3}, difficulty 2^63 and one worker, nonce 1 has a
sufficient difficulty, so some execution returns. -/
theorem Generate_returns_iff_witness :
    ∃ sched s n, Generate [1, 2, 3] (2 ^ 63) 1 sched = some s ∧ s.returns = some n :=
  (Generate_returns_iff [1, 2, 3] (2 ^ 63) 1 (by decide)).1.2
    ⟨1, 0x8baca94ed49fcb53, by decide, by decide, by decide⟩

/-- Counterexample to C5 as stated (every clamped worker count): for the empty payload,
difficulty 0 and `2^45 + 1` workers, a count in the range of `int`, nonce 0 lies below
`W * delta` and has a sufficient difficulty, but `make(chan uint64, workers-1)` panics, so
no execution of `Generate` returns. -/
theorem Generate_returns_iff_counterexample :
    ((2 ^ 45 + 1 : Int) ≤ maxInt) ∧
    (∃ n v, n < (clampWorkers (2 ^ 45 + 1)).toNat * delta (2 ^ 45 + 1) ∧
      Difficulty [] n = some v ∧ 0 ≤ v) ∧
    makeChan (clampWorkers (2 ^ 45 + 1) - 1) = none ∧
    ¬ ∃ sched s n, Generate [] 0 (2 ^ 45 + 1) sched = some s ∧ s.returns = some n := by
  refine ⟨by decide, ⟨0, mappedValue [] 0, by decide, Difficulty_eq [] 0, Nat.zero_le _⟩,
    by decide, ?_⟩
  rintro ⟨sched, s, n, h, -⟩
  have hset := (Generate_run _ _ _ _ _ h).1
  have hnone : setup (2 ^ 45 + 1) = none := by decide
  rw [hnone] at hset
  cases hset

/-- C9. For difficulties `d ≤ d'`: every nonce valid for `d'` is valid for `d`; in every
worker range that has a first valid nonce `n'` for `d'` there is a first valid nonce `n` for
`d` with `n ≤ n'`, so the number of hashes up to it, `n - start + 1`, is not larger; and with
one worker, when `Generate` can return `n'` for `d'`, then for `d` some execution returns,
every execution that cannot be continued has returned, and every returned nonce is at most
`n'`. -/
theorem difficulty_monotone (data : List Nat) (d d' : Nat) (hd : d ≤ d') :
    (∀ n, Verify data d' n = some true → Verify data d n = some true) ∧
    (∀ (workers : Int) (j n' : Nat), FirstIn data d' workers j n' →
      ∃ n, FirstIn data d workers j n ∧ n ≤ n' ∧
        n - rangeStart workers j + 1 ≤ n' - rangeStart workers j + 1) ∧
    ∀ n', (∃ sched s, Generate data d' 1 sched = some s ∧ s.returns = some n') →
      (∃ sched s n, Generate data d 1 sched = some s ∧ s.returns = some n) ∧
      (∀ sched s, Generate data d 1 sched = some s → Terminal data d 1 s →
        ∃ n, s.returns = some n) ∧
      ∀ sched s n, Generate data d 1 sched = some s → s.returns = some n → n ≤ n' := by
  have hmono : ∀ n, Valid data d' n → Valid data d n := by
    intro n h
    rw [Valid_iff] at h ⊢
    omega
  have hrange : ∀ (workers : Int) (j n' : Nat), FirstIn data d' workers j n' →
      ∃ n, FirstIn data d workers j n ∧ n ≤ n' := by
    intro workers j n' hf
    obtain ⟨n, hle, hn⟩ := exists_FirstIn data d workers j n' hf.1 hf.2.1 (hmono n' hf.2.2.1)
    exact ⟨n, hn, hle⟩
  refine ⟨hmono, ?_, ?_⟩
  · intro workers j n' hf
    obtain ⟨n, hn, hle⟩ := hrange workers j n' hf
    exact ⟨n, hn, hle, by omega⟩
  · rintro n' ⟨sched', s', h', hn'⟩
    have hc1 : clampWorkers 1 = 1 := by decide
    obtain ⟨j', hj', hf'⟩ := got_FirstIn _ _ _ _ _ n' h' (returns_got s' n' hn')
    have e' : j' = 0 := by omega
    subst e'
    obtain ⟨n0, hf0, hle0⟩ := hrange 1 0 n' hf'
    obtain ⟨hex, hall⟩ := returns_of_valid data d 1 (by decide) 0 n' hj' hf'.1 hf'.2.1
      (hmono n' hf'.2.2.1)
    refine ⟨hex, hall, ?_⟩
    intro sched s n h hn
    obtain ⟨j, hj, hf⟩ := got_FirstIn _ _ _ _ _ n h (returns_got s n hn)
    have e : j = 0 := by omega
    subst e
    rw [FirstIn_unique _ _ _ _ _ _ hf hf0]
    exact hle0

/-- Witness of C9: payload {1,2,3}, difficulties 2^63 and 0xb000000000000000 (first valid
nonces 1 and 3): a nonce valid for the larger difficulty is valid for the smaller one. -/
theorem difficulty_monotone_witness :
    Verify [1, 2, 3] 0xb000000000000000 3 = some true ∧
    Verify [1, 2, 3] (2 ^ 63) 3 = some true :=
  ⟨by decide,
   (difficulty_monotone [1, 2, 3] (2 ^ 63) 0xb000000000000000 (by decide)).1 3 (by decide)⟩

/-- C10. Deadlock-free publication: in every state an execution of `Generate` can reach, a
worker at its send can complete the send at once, or else the caller has not received yet
and can step (it is still starting workers, or it can receive a buffered value, after which
the buffer has room); from the moment the caller has received, every send completes at
once; no execution ends with a worker blocked at its send; every execution is finite. -/
theorem send_never_blocks (data : List Nat) (difficulty : Nat) (workers : Int)
    (sched : List Action) (s : State)
    (h : Generate data difficulty workers sched = some s) :
    (∀ (j n : Nat), s.workers[j]? = some (Worker.sending n) →
      step data difficulty workers s (Action.worker j) ≠ none ∨
      (s.main.got = none ∧ step data difficulty workers s Action.main ≠ none)) ∧
    (∀ (j n : Nat), s.workers[j]? = some (Worker.sending n) → s.main.got ≠ none →
      step data difficulty workers s (Action.worker j) ≠ none) ∧
    (Terminal data difficulty workers s →
      ∀ (j n : Nat), s.workers[j]? ≠ some (Worker.sending n)) ∧
    sched.length ≤ (start workers).fuel workers := by
  have hs := inv_Generate _ _ _ _ _ h
  have key : ∀ (j n : Nat), s.workers[j]? = some (Worker.sending n) →
      step data difficulty workers s (Action.worker j) ≠ none ∨
      (s.main.got = none ∧ step data difficulty workers s Action.main ≠ none) := by
    intro j n hw
    by_cases hstep : step data difficulty workers s (Action.worker j) = none
    · right
      obtain ⟨h1, h2⟩ := stepWorker_sending _ _ _ _ _ _ hw hstep
      have hp := le_sum_map Worker.pending s.workers j _ hw
      simp only [Worker.pending] at hp
      have hc := hs.count
      have hlen := workers_length_le _ _ _ _ hs
      have hgot : s.main.got = none := by
        cases hg : s.main.got with
        | none => rfl
        | some k =>
          simp only [hg, Option.isSome_some, if_true] at hc
          omega
      refine ⟨hgot, ?_⟩
      intro hm
      simp only [step] at hm
      rcases stepMain_none _ _ _ hm with hr | ⟨k, hk, -⟩ | ⟨k, hk⟩
      · exact h1 hr
      · rw [hk] at hgot; cases hgot
      · rw [hk] at hgot; cases hgot
    · exact Or.inl hstep
  refine ⟨key, ?_, ?_, ?_⟩
  · intro j n hw hg
    rcases key j n hw with h1 | ⟨h1, -⟩
    · exact h1
    · exact absurd h1 hg
  · intro hT j n hw
    exact terminal_no_sender _ _ _ _ hs hT j n hw
  · exact fuel_Generate _ _ _ _ _ h

/-- Witness of C10: two workers, difficulty 0, buffer of capacity one. Both workers find a
nonce before the caller receives; the first send fills the buffer, the second worker is at
its send with a full buffer, and the caller can step. -/
theorem send_never_blocks_witness :
    step [] 0 2 (State.mk Main.receiving [Worker.finishing, Worker.sending 9223372036854775807]
      [0] false 2) (Action.worker 1) ≠ none ∨
    ((State.mk Main.receiving [Worker.finishing, Worker.sending 9223372036854775807]
      [0] false 2).main.got = none ∧
     step [] 0 2 (State.mk Main.receiving [Worker.finishing, Worker.sending 9223372036854775807]
      [0] false 2) Action.main ≠ none) :=
  (send_never_blocks [] 0 2
    [Action.main, Action.main, Action.worker 0, Action.worker 1, Action.worker 0, Action.main]
    (State.mk Main.receiving [Worker.finishing, Worker.sending 9223372036854775807]
      [0] false 2) (by decide)).1 1 9223372036854775807 (by decide)

/-! ## Further facts about the ranges and the encoding -/

theorem rangeStart_lt_rangeEnd (workers : Int) (hw : workers ≤ maxInt) (j : Nat)
    (hj : (j : Int) < clampWorkers workers) : rangeStart workers j < rangeEnd workers j := by
  have hd := delta_ge workers hw
  rw [rangeStart_eq workers hw j hj, rangeEnd_eq workers hw j hj]
  omega

theorem rangeEnd_le_rangeStart (workers : Int) (hw : workers ≤ maxInt) (i j : Nat)
    (hij : i < j) (hj : (j : Int) < clampWorkers workers) :
    rangeEnd workers i ≤ rangeStart workers j := by
  rw [rangeStart_eq workers hw j hj, rangeEnd_eq workers hw i (by omega)]
  have h : (i + 1) * delta workers ≤ j * delta workers := Nat.mul_le_mul_right _ (by omega)
  rw [Nat.add_mul] at h
  omega

theorem rangeEnd_lt (workers : Int) (j : Nat) : rangeEnd workers j < 2 ^ 64 :=
  Nat.mod_lt _ (by decide)

theorem be64_inj (n n' : Nat) (hn : n < 2 ^ 64) (hn' : n' < 2 ^ 64) (h : be64 n = be64 n') :
    n = n' := by
  simp only [be64, Nat.shiftRight_eq_div_pow, List.cons.injEq, and_true] at h
  omega

/-- A worker in its loop is about to try a nonce of its own range, with a buffer on which
the loop body computes the same value as `Difficulty`. -/
theorem running_spec (data : List Nat) (difficulty : Nat) (workers : Int)
    (sched : List Action) (s : State) (h : Generate data difficulty workers sched = some s)
    (j nonce stop : Nat) (buf : List Nat)
    (hw : s.workers[j]? = some (Worker.running nonce stop buf)) :
    buf.length = data.length + 8 ∧ buf.take data.length = data ∧
    stop = rangeEnd workers j ∧ rangeStart workers j ≤ nonce ∧ (j : Int) < clampWorkers workers ∧
    hashNonce buf data.length nonce = some (data ++ be64 nonce, mappedValue data nonce) := by
  have hs := inv_Generate _ _ _ _ _ h
  obtain ⟨h1, h2, h3, h4, -⟩ := hs.worker j _ hw
  have hlen := workers_length_le _ _ _ _ hs
  have hj := lt_length_of_getElem? hw
  exact ⟨h1, h2, h3, h4, by omega, hashNonce_value data buf nonce h1 h2⟩

/-! ## The caller joins the workers -/

/-- The caller is past `close(done)` only with `done` closed. -/
theorem closed_step (data : List Nat) (difficulty : Nat) (workers : Int) (s t : State)
    (hD : ∀ n, s.main = Main.waiting n ∨ s.main = Main.returned n → s.done = true)
    (ht : Trans data difficulty workers s t) :
    ∀ n, t.main = Main.waiting n ∨ t.main = Main.returned n → t.done = true := by
  cases ht with
  | spawn m ws r dn wg i hm hi => exact fun n h => (by rcases h with h | h <;> cases h)
  | spawned m ws r dn wg i hm hi => exact fun n h => (by rcases h with h | h <;> cases h)
  | receive m ws r dn wg n rest hm hr =>
    exact fun n h => (by rcases h with h | h <;> cases h)
  | close m ws r dn wg n hm => exact fun _ _ => rfl
  | wait m ws r dn wg n hm hz => exact fun _ _ => hD n (Or.inl hm)
  | loopEnd m ws r dn wg i nonce stop buf hw hge => exact hD
  | cancelled m ws r dn wg i nonce stop buf hw hlt hdn => exact hD
  | panic m ws r dn wg i nonce stop buf hw hlt hdn hh => exact hD
  | found m ws r dn wg i nonce stop buf buf2 value hw hlt hdn hh hv => exact hD
  | next m ws r dn wg i nonce stop buf buf2 value hw hlt hdn hh hv => exact hD
  | handoff m ws r dn wg i n hw hm hr =>
    exact fun n h => (by rcases h with h | h <;> cases h)
  | enqueue m ws r dn wg i n hw hm hr => exact hD
  | finish m ws r dn wg i hw hv => exact hD
  | finishPanic m ws r dn wg i hw hv => exact hD

theorem closed_run (data : List Nat) (difficulty : Nat) (workers : Int) (sched : List Action)
    (s t : State)
    (hD : ∀ n, s.main = Main.waiting n ∨ s.main = Main.returned n → s.done = true)
    (h : run data difficulty workers s sched = some t) :
    ∀ n, t.main = Main.waiting n ∨ t.main = Main.returned n → t.done = true := by
  induction sched generalizing s with
  | nil =>
    simp only [run, Option.some.injEq] at h
    subst h; exact hD
  | cons a rest ih =>
    simp only [run] at h
    split at h
    · cases h
    · rename_i u hu
      exact ih u (closed_step _ _ _ _ _ hD (step_trans _ _ _ _ _ _ hu)) h

theorem closed_Generate (data : List Nat) (difficulty : Nat) (workers : Int)
    (sched : List Action) (s : State) (h : Generate data difficulty workers sched = some s) :
    ∀ n, s.main = Main.waiting n ∨ s.main = Main.returned n → s.done = true :=
  closed_run _ _ _ sched _ _ (fun n h => (by rcases h with h | h <;> cases h))
    (Generate_run _ _ _ _ _ h).2

/-- For a worker count that fits the counter of the wait group, the caller has returned only
with the counter at zero. -/
theorem join_step (data : List Nat) (difficulty : Nat) (workers : Int) (s t : State)
    (hs : Inv data difficulty workers s) (hg : WgInv workers s)
    (hR : ∀ n, s.main = Main.returned n → s.wg = 0)
    (ht : Trans data difficulty workers s t) :
    ∀ n, t.main = Main.returned n → t.wg = 0 := by
  have hpos := wg_pos _ _ _ _ hs hg
  cases ht with
  | spawn m ws r dn wg i hm hi => exact fun n h => (by cases h)
  | spawned m ws r dn wg i hm hi => exact fun n h => (by cases h)
  | receive m ws r dn wg n rest hm hr => exact fun n h => (by cases h)
  | close m ws r dn wg n hm => exact fun n h => (by cases h)
  | wait m ws r dn wg n hm hz => exact fun _ _ => hz
  | loopEnd m ws r dn wg i nonce stop buf hw hge => exact hR
  | cancelled m ws r dn wg i nonce stop buf hw hlt hdn => exact hR
  | panic m ws r dn wg i nonce stop buf hw hlt hdn hh => exact hR
  | found m ws r dn wg i nonce stop buf buf2 value hw hlt hdn hh hv => exact hR
  | next m ws r dn wg i nonce stop buf buf2 value hw hlt hdn hh hv => exact hR
  | handoff m ws r dn wg i n hw hm hr => exact fun n h => (by cases h)
  | enqueue m ws r dn wg i n hw hm hr => exact hR
  | finish m ws r dn wg i hw hv =>
    intro n hn
    exfalso
    have hz : wg = 0 := hR n hn
    have hpos2 : 0 < wg := hpos i _ hw (by simp)
    omega
  | finishPanic m ws r dn wg i hw hv =>
    intro n hn
    exfalso
    have hz : wg = 0 := hR n hn
    have hpos2 : 0 < wg := hpos i _ hw (by simp)
    omega

theorem join_run (data : List Nat) (difficulty : Nat) (workers : Int) (sched : List Action)
    (s t : State) (hW : workers ≤ maxInt32) (hs : Inv data difficulty workers s)
    (hg : WgInv workers s) (hR : ∀ n, s.main = Main.returned n → s.wg = 0)
    (h : run data difficulty workers s sched = some t) :
    ∀ n, t.main = Main.returned n → t.wg = 0 := by
  induction sched generalizing s with
  | nil =>
    simp only [run, Option.some.injEq] at h
    subst h; exact hR
  | cons a rest ih =>
    simp only [run] at h
    split at h
    · cases h
    · rename_i u hu
      have hT := step_trans _ _ _ _ _ _ hu
      exact ih u (inv_step _ _ _ _ _ hs hT) (wg_step _ _ _ _ _ hW hs hg hT)
        (join_step _ _ _ _ _ hs hg hR hT) h

theorem join_Generate (data : List Nat) (difficulty : Nat) (workers : Int)
    (sched : List Action) (s : State) (hW : workers ≤ maxInt32)
    (h : Generate data difficulty workers sched = some s) :
    ∀ n, s.main = Main.returned n → s.wg = 0 :=
  join_run _ _ _ sched _ _ hW (inv_start _ _ _) (wg_start workers hW)
    (fun n h => (by cases h)) (Generate_run _ _ _ _ _ h).2

/-! ## Executions that return a chosen nonce -/

theorem run_snoc (data : List Nat) (difficulty : Nat) (workers : Int) (s t u : State)
    (sched : List Action) (a : Action) (h : run data difficulty workers s sched = some t)
    (ha : step data difficulty workers t a = some u) :
    run data difficulty workers s (sched ++ [a]) = some u := by
  rw [run_append, h]
  simp [run, ha]

theorem run_trans (data : List Nat) (difficulty : Nat) (workers : Int) (s t u : State)
    (xs ys : List Action) (h : run data difficulty workers s xs = some t)
    (h2 : run data difficulty workers t ys = some u) :
    run data difficulty workers s (xs ++ ys) = some u := by
  rw [run_append, h]
  exact h2

/-- The caller starts its first `k` workers: after `k` steps of the caller, `k` workers are
at the head of their loops, at the start of their ranges. -/
theorem spawn_run (data : List Nat) (difficulty : Nat) (workers : Int) (k : Nat)
    (hk : (k : Int) ≤ clampWorkers workers) :
    ∃ ws : List Worker,
      run data difficulty workers (start workers) (List.replicate k Action.main) =
        some (State.mk (Main.spawning k) ws [] false (start workers).wg) ∧
      ws.length = k ∧
      ∀ j, j < k → ws[j]? = some (Worker.running (rangeStart workers j) (rangeEnd workers j)
        (copy (make (data.length + 8)) data)) := by
  induction k with
  | zero =>
    refine ⟨[], rfl, rfl, ?_⟩
    intro j hj
    omega
  | succ k ih =>
    obtain ⟨ws, hrun, hlen, hws⟩ := ih (by omega)
    refine ⟨ws ++ [Worker.running (rangeStart workers k) (rangeEnd workers k)
      (copy (make (data.length + 8)) data)], ?_, by simp [hlen], ?_⟩
    · rw [List.replicate_succ']
      apply run_snoc _ _ _ _ _ _ _ _ hrun
      have hlt : (k : Int) < clampWorkers workers := by omega
      simp [step, stepMain, hlt]
    · intro j hj
      by_cases hjk : j < k
      · rw [List.getElem?_append_left (by omega)]
        exact hws j hjk
      · have : j = k := by omega
        subst this
        rw [List.getElem?_append_right (by omega)]
        simp [hlen]

/-- A worker whose range has a first valid nonce `n` reaches its send with `n`, stepping
alone, while `done` is open. -/
theorem scan_run (data : List Nat) (difficulty : Nat) (workers : Int) (m : Main)
    (r : List Nat) (wg : Int) (j n : Nat) (hf : FirstIn data difficulty workers j n) :
    ∀ (k nonce : Nat) (buf : List Nat) (ws : List Worker), n - nonce = k →
      rangeStart workers j ≤ nonce → nonce ≤ n →
      ws[j]? = some (Worker.running nonce (rangeEnd workers j) buf) →
      buf.length = data.length + 8 → buf.take data.length = data →
      run data difficulty workers (State.mk m ws r false wg)
        (List.replicate (k + 1) (Action.worker j)) =
        some (State.mk m (ws.set j (Worker.sending n)) r false wg) := by
  obtain ⟨hf1, hf2, hf3, hf4⟩ := hf
  intro k
  induction k with
  | zero =>
    intro nonce buf ws hk hlo hle hw hlen htk
    have e : nonce = n := by omega
    subst e
    have hv := hashNonce_value data buf nonce hlen htk
    have hval : difficulty ≤ mappedValue data nonce := (Valid_iff _ _ _).1 hf3
    simp [run, step, stepWorker, hw, hf2, hv, hval]
  | succ k ih =>
    intro nonce buf ws hk hlo hle hw hlen htk
    have hlt : nonce < n := by omega
    have hv := hashNonce_value data buf nonce hlen htk
    have hnv : ¬ difficulty ≤ mappedValue data nonce := by
      intro hc
      exact hf4 nonce hlo hlt ((Valid_iff _ _ _).2 hc)
    have hend := rangeEnd_lt workers j
    have hn1 : (nonce + 1) % 2 ^ 64 = nonce + 1 := Nat.mod_eq_of_lt (by omega)
    have hjl := lt_length_of_getElem? hw
    have hstep : step data difficulty workers (State.mk m ws r false wg) (Action.worker j) =
        some (State.mk m (ws.set j (Worker.running (nonce + 1) (rangeEnd workers j)
          (data ++ be64 nonce))) r false wg) := by
      have hlt2 : nonce < rangeEnd workers j := by omega
      have hn2 : (nonce + 1) % 18446744073709551616 = nonce + 1 := by omega
      simp [step, stepWorker, hw, hlt2, hv, hnv, hn2]
    have hih := ih (nonce + 1) (data ++ be64 nonce)
      (ws.set j (Worker.running (nonce + 1) (rangeEnd workers j) (data ++ be64 nonce)))
      (by omega) (by omega) (by omega)
      (by rw [List.getElem?_set]; simp [hjl]) (by simp [be64_length]) (by simp)
    rw [List.set_set] at hih
    rw [List.replicate_succ]
    simp only [run, hstep]
    exact hih

theorem got_step (data : List Nat) (difficulty : Nat) (workers : Int) (s t : State) (n : Nat)
    (ht : Trans data difficulty workers s t) (hg : s.main.got = some n) :
    t.main.got = some n := by
  cases ht with
  | spawn m ws r dn wg i hm hi => subst hm; cases hg
  | spawned m ws r dn wg i hm hi => subst hm; cases hg
  | receive m ws r dn wg k rest hm hr => subst hm; cases hg
  | close m ws r dn wg k hm => subst hm; exact hg
  | wait m ws r dn wg k hm hz => subst hm; exact hg
  | loopEnd m ws r dn wg i nonce stop buf hw hge => exact hg
  | cancelled m ws r dn wg i nonce stop buf hw hlt hdn => exact hg
  | panic m ws r dn wg i nonce stop buf hw hlt hdn hh => exact hg
  | found m ws r dn wg i nonce stop buf buf2 value hw hlt hdn hh hv => exact hg
  | next m ws r dn wg i nonce stop buf buf2 value hw hlt hdn hh hv => exact hg
  | handoff m ws r dn wg i k hw hm hr => subst hm; cases hg
  | enqueue m ws r dn wg i k hw hm hr => exact hg
  | finish m ws r dn wg i hw hv => exact hg
  | finishPanic m ws r dn wg i hw hv => exact hg

theorem got_run (data : List Nat) (difficulty : Nat) (workers : Int) (sched : List Action)
    (s t : State) (n : Nat) (h : run data difficulty workers s sched = some t)
    (hg : s.main.got = some n) : t.main.got = some n := by
  induction sched generalizing s with
  | nil =>
    simp only [run, Option.some.injEq] at h
    subst h; exact hg
  | cons a rest ih =>
    simp only [run] at h
    split at h
    · cases h
    · rename_i u hu
      exact ih u h (got_step _ _ _ _ _ n (step_trans _ _ _ _ _ _ hu) hg)

/-- The worker whose range has the first valid nonce `n` hands it to the caller while all
other workers are still at the start of their ranges. -/
theorem handoff_run (data : List Nat) (difficulty : Nat) (workers : Int) (j n : Nat)
    (hj : (j : Int) < clampWorkers workers) (hf : FirstIn data difficulty workers j n) :
    ∃ (sched : List Action) (ws : List Worker),
      run data difficulty workers (start workers) sched =
        some (State.mk (Main.closing n) ws [] false (start workers).wg) ∧
      ws[j]? = some Worker.finishing ∧
      ∀ i : Nat, (i : Int) < clampWorkers workers → i ≠ j →
        ws[i]? = some (Worker.running (rangeStart workers i) (rangeEnd workers i)
          (copy (make (data.length + 8)) data)) := by
  have hpos := clampWorkers_pos workers
  obtain ⟨ws, hrun, hlen, hws⟩ := spawn_run data difficulty workers
    (clampWorkers workers).toNat (by omega)
  have hjW : j < (clampWorkers workers).toNat := by omega
  -- the caller leaves its loop
  have h1 : run data difficulty workers (start workers)
      (List.replicate (clampWorkers workers).toNat Action.main ++ [Action.main]) =
      some (State.mk Main.receiving ws [] false (start workers).wg) := by
    apply run_snoc _ _ _ _ _ _ _ _ hrun
    have hnlt : ¬ (((clampWorkers workers).toNat : Nat) : Int) < clampWorkers workers := by
      omega
    simp [step, stepMain, hnlt]
  -- worker `j` scans up to `n`
  have h2 := scan_run data difficulty workers Main.receiving [] (start workers).wg j n hf
    (n - rangeStart workers j) (rangeStart workers j) _ ws rfl (le_refl _) hf.1 (hws j hjW)
    (by simp [copy_make]) (by simp [copy_make])
  -- and hands `n` to the caller
  have h3 : step data difficulty workers
      (State.mk Main.receiving (ws.set j (Worker.sending n)) [] false (start workers).wg)
      (Action.worker j) =
      some (State.mk (Main.closing n) ((ws.set j (Worker.sending n)).set j Worker.finishing) []
        false (start workers).wg) := by
    have hw : (ws.set j (Worker.sending n))[j]? = some (Worker.sending n) := by
      rw [List.getElem?_set]; simp [hlen, hjW]
    simp [step, stepWorker, hw]
  have h4 := run_snoc _ _ _ _ _ _ _ _ (run_trans _ _ _ _ _ _ _ _ h1 h2) h3
  refine ⟨_, _, h4, ?_, ?_⟩
  · rw [List.set_set, List.getElem?_set]
    simp [hlen, hjW]
  · intro i hi hij
    rw [List.set_set, List.getElem?_set_ne (fun e => hij e.symm)]
    exact hws i (by omega)

/-- Every first valid nonce of the range of a worker is returned by some execution, when the
worker count fits the counter of the wait group. -/
theorem returns_of_FirstIn (data : List Nat) (difficulty : Nat) (workers : Int)
    (hW : workers ≤ maxInt32) (j n : Nat)
    (hj : (j : Int) < clampWorkers workers) (hf : FirstIn data difficulty workers j n) :
    ∃ sched s, Generate data difficulty workers sched = some s ∧ s.returns = some n := by
  obtain ⟨sched1, ws, h4, -, -⟩ := handoff_run data difficulty workers j n hj hf
  have hok := setup_ok workers hW
  have hinv := inv_run _ _ _ _ _ _ (inv_start data difficulty workers) h4
  obtain ⟨sched2, t, hrun2, hT⟩ := exists_terminal data difficulty workers _ hinv
  have h5 := run_trans _ _ _ _ _ _ _ _ h4 hrun2
  have hgen : Generate data difficulty workers (sched1 ++ sched2) = some t := by
    rw [Generate_of_setup _ _ _ _ hok]
    exact h5
  have hgot := got_run _ _ _ _ _ _ n hrun2 rfl
  refine ⟨_, t, hgen, ?_⟩
  rcases terminal_main _ _ _ _ (inv_Generate data difficulty workers _ _ hgen)
    (wg_Generate _ _ _ _ _ hW hgen) hT with ⟨hm, -⟩ | ⟨k, hm⟩
  · rw [hm] at hgot; cases hgot
  · rw [hm] at hgot
    simp only [Main.got, Option.some.injEq] at hgot
    subst hgot
    exact (returns_iff t k).2 hm

/-! ## The claims on joining, ranges, the loop body and the encoding -/

/-- C11, amended. No leaked work, for a clamped worker count of at most `2^31 - 1`, which
the 32-bit counter of the wait group holds exactly: in every reachable state in which the
caller has returned, `done` is closed, the counter is zero, all `W` workers are started and
every one of them has ended, and no goroutine can step any more; and at `wg.Wait()` the
caller cannot proceed while a worker has not ended. For every worker count: `done` is closed
exactly when the caller is past its single `close(done)`, which it executes after receiving,
with `done` still open; and a worker at the head of its loop with a nonce left leaves the
loop, without hashing, when `done` is closed. -/
theorem no_leaked_work (data : List Nat) (difficulty : Nat) (workers : Int)
    (sched : List Action) (s : State)
    (h : Generate data difficulty workers sched = some s) :
    (workers ≤ maxInt32 → ∀ n, s.returns = some n →
      s.done = true ∧ s.wg = 0 ∧ (s.workers.length : Int) = clampWorkers workers ∧
      (∀ (j : Nat) (w : Worker), s.workers[j]? = some w → w = Worker.exited) ∧
      Terminal data difficulty workers s) ∧
    (s.done = true ↔ ∃ n, s.main = Main.waiting n ∨ s.main = Main.returned n) ∧
    (∀ n, s.main = Main.closing n → s.done = false ∧
      step data difficulty workers s Action.main =
        some (State.mk (Main.waiting n) s.workers s.result true s.wg)) ∧
    (workers ≤ maxInt32 → ∀ n, s.main = Main.waiting n →
      (∃ (j : Nat) (w : Worker), s.workers[j]? = some w ∧ w ≠ Worker.exited) →
      step data difficulty workers s Action.main = none) ∧
    (∀ (j nonce stop : Nat) (buf : List Nat),
      s.workers[j]? = some (Worker.running nonce stop buf) → nonce < stop → s.done = true →
      step data difficulty workers s (Action.worker j) =
        some (State.mk s.main (s.workers.set j Worker.finishing) s.result s.done s.wg)) := by
  have hs := inv_Generate _ _ _ _ _ h
  have hD := closed_Generate _ _ _ _ _ h
  refine ⟨?_, ?_, ?_, ?_, ?_⟩
  · intro hW n hn
    have hg := wg_Generate _ _ _ _ _ hW h
    have hR := join_Generate _ _ _ _ _ hW h
    have hm := (returns_iff s n).1 hn
    have hsp := hs.spawned (fun k hk => by rw [hm] at hk; cases hk)
    have hex : ∀ (j : Nat) (w : Worker), s.workers[j]? = some w → w = Worker.exited := by
      intro j w hw
      by_contra hne
      have := wg_pos _ _ _ _ hs hg j w hw hne
      have := hR n hm
      omega
    refine ⟨hD n (Or.inr hm), hR n hm, hsp, hex, ?_⟩
    intro a
    cases a with
    | main => simp [step, stepMain, hm]
    | worker j =>
      simp only [step, stepWorker]
      cases hw : s.workers[j]? with
      | none => rfl
      | some w =>
        rw [hex j w hw]
  · constructor
    · exact hs.done
    · rintro ⟨n, hn⟩
      exact hD n hn
  · intro n hm
    constructor
    · cases hd : s.done with
      | false => rfl
      | true =>
        obtain ⟨k, hk | hk⟩ := hs.done hd <;> rw [hm] at hk <;> cases hk
    · simp [step, stepMain, hm]
  · rintro hW n hm ⟨j, w, hw, hne⟩
    have hg := wg_Generate _ _ _ _ _ hW h
    have hpos := wg_pos _ _ _ _ hs hg j w hw hne
    have hne0 : s.wg ≠ 0 := by omega
    simp [step, stepMain, hm, hne0]
  · intro j nonce stop buf hw hlt hd
    simp [step, stepWorker, hw, hlt, hd]

/-- Witness of C11: in the state in which the caller has returned nonce 1, `done` is closed
and the counter of the wait group is zero. -/
theorem no_leaked_work_witness :
    (State.mk (Main.returned 1) [Worker.exited] [] true 0).done = true ∧
    (State.mk (Main.returned 1) [Worker.exited] [] true 0).wg = 0 :=
  ⟨((no_leaked_work [1, 2, 3] (2 ^ 63) 1
      [Action.main, Action.main, Action.worker 0, Action.worker 0, Action.worker 0,
        Action.main, Action.worker 0, Action.main]
      (State.mk (Main.returned 1) [Worker.exited] [] true 0) (by decide)).1 (by decide)
        1 rfl).1,
   ((no_leaked_work [1, 2, 3] (2 ^ 63) 1
      [Action.main, Action.main, Action.worker 0, Action.worker 0, Action.worker 0,
        Action.main, Action.worker 0, Action.main]
      (State.mk (Main.returned 1) [Worker.exited] [] true 0) (by decide)).1 (by decide)
        1 rfl).2.1⟩

/-- Counterexample to C11 as stated (every worker count): for the empty payload, difficulty
0 and `2^32` workers, `make(chan uint64, workers-1)` does not panic and `wg.Add(workers)`
leaves the 32-bit counter at zero without a panic, so `wg.Wait()` does not wait: some
execution returns nonce 0 while worker 0 has not yet executed its deferred `wg.Done()` and
worker 1 is still at the start of its loop. -/
theorem no_leaked_work_counterexample :
    ((2 ^ 32 : Int) ≤ maxInt) ∧ setup (2 ^ 32) = some (start (2 ^ 32)) ∧
    (start (2 ^ 32)).wg = 0 ∧
    ∃ sched s, Generate [] 0 (2 ^ 32) sched = some s ∧ s.returns = some 0 ∧
      s.workers[0]? = some Worker.finishing ∧
      s.workers[1]? = some (Worker.running (rangeStart (2 ^ 32) 1) (rangeEnd (2 ^ 32) 1)
        (copy (make (([] : List Nat).length + 8)) [])) := by
  have hset : setup (2 ^ 32) = some (start (2 ^ 32)) := by decide
  have hwg : (start (2 ^ 32)).wg = 0 := by decide
  refine ⟨by decide, hset, hwg, ?_⟩
  have hf : FirstIn [] 0 (2 ^ 32) 0 0 := by
    refine ⟨by decide, by decide, (Valid_iff _ _ _).2 (Nat.zero_le _), ?_⟩
    intro m _ hm
    omega
  obtain ⟨sched, ws, hrun, h0, hothers⟩ := handoff_run [] 0 (2 ^ 32) 0 0 (by decide) hf
  have h1 := hothers 1 (by decide) (by decide)
  rw [hwg] at hrun
  refine ⟨sched ++ [Action.main, Action.main],
    State.mk (Main.returned 0) ws [] true 0, ?_, rfl, h0, h1⟩
  rw [Generate_of_setup _ _ _ _ hset]
  apply run_trans _ _ _ _ _ _ _ _ hrun
  simp [run, step, stepMain]

/-- C12. Worker ranges never overlap: for a worker count in the range of `int` and distinct
worker indices `i`, `j` below `W`, the bounds computed in `uint64` arithmetic are
`i * delta` and `i * delta + delta`, no nonce lies in both ranges, and the nonce a worker is
about to hash is never one that another worker is about to hash in any execution. -/
theorem ranges_disjoint (workers : Int) (hw : workers ≤ maxInt) (i j : Nat)
    (hi : (i : Int) < clampWorkers workers) (hj : (j : Int) < clampWorkers workers)
    (hij : i ≠ j) :
    rangeStart workers i = i * delta workers ∧
    rangeEnd workers i = i * delta workers + delta workers ∧
    (∀ n, rangeStart workers i ≤ n → n < rangeEnd workers i →
      ¬ (rangeStart workers j ≤ n ∧ n < rangeEnd workers j)) ∧
    ∀ (data : List Nat) (d : Nat) (sched sched' : List Action) (s s' : State)
      (nonce stop nonce' stop' : Nat) (buf buf' : List Nat),
      Generate data d workers sched = some s → Generate data d workers sched' = some s' →
      s.workers[i]? = some (Worker.running nonce stop buf) → nonce < stop →
      s'.workers[j]? = some (Worker.running nonce' stop' buf') → nonce' < stop' →
      nonce ≠ nonce' := by
  have hdis : ∀ n, rangeStart workers i ≤ n → n < rangeEnd workers i →
      ¬ (rangeStart workers j ≤ n ∧ n < rangeEnd workers j) := by
    intro n h1 h2 ⟨h3, h4⟩
    rcases Nat.lt_or_gt_of_ne hij with hlt | hlt
    · have := rangeEnd_le_rangeStart workers hw i j hlt hj
      omega
    · have := rangeEnd_le_rangeStart workers hw j i hlt hi
      omega
  refine ⟨rangeStart_eq workers hw i hi, rangeEnd_eq workers hw i hi, hdis, ?_⟩
  intro data d sched sched' s s' nonce stop nonce' stop' buf buf' h h' hwk hlt hwk' hlt' heq
  obtain ⟨-, -, hstop, hlo, -, -⟩ := running_spec _ _ _ _ _ h _ _ _ _ hwk
  obtain ⟨-, -, hstop', hlo', -, -⟩ := running_spec _ _ _ _ _ h' _ _ _ _ hwk'
  subst heq hstop hstop'
  exact hdis nonce hlo hlt ⟨hlo', hlt'⟩

/-- Witness of C12: with two workers, nonce 5 of the first range is not in the second. -/
theorem ranges_disjoint_witness : ¬ (rangeStart 2 1 ≤ 5 ∧ 5 < rangeEnd 2 1) :=
  (ranges_disjoint 2 (by decide) 0 1 (by decide) (by decide) (by decide)).2.2.1 5
    (by decide) (by decide)

/-- C13. Unscanned tail: for a worker count in the range of `int`, `W * delta` is at most
`MaxUint64`, a nonce lies in the range of some worker exactly when it is below `W * delta`,
every nonce a worker is about to hash and every returned nonce is below `W * delta` and
differs from `MaxUint64`, and for two workers `W * delta` is strictly below `MaxUint64`. -/
theorem unscanned_tail (workers : Int) (hw : workers ≤ maxInt) :
    (clampWorkers workers).toNat * delta workers ≤ maxUint64 ∧
    (∀ n, (∃ j : Nat, (j : Int) < clampWorkers workers ∧ rangeStart workers j ≤ n ∧
        n < rangeEnd workers j) ↔ n < (clampWorkers workers).toNat * delta workers) ∧
    (∀ (data : List Nat) (d : Nat) (sched : List Action) (s : State),
      Generate data d workers sched = some s →
      (∀ (j nonce stop : Nat) (buf : List Nat),
        s.workers[j]? = some (Worker.running nonce stop buf) → nonce < stop →
        nonce < (clampWorkers workers).toNat * delta workers ∧ nonce ≠ maxUint64) ∧
      ∀ n, s.returns = some n →
        n < (clampWorkers workers).toNat * delta workers ∧ n ≠ maxUint64) ∧
    (clampWorkers 2).toNat * delta 2 < maxUint64 := by
  have hmul := mul_delta_le workers hw
  refine ⟨hmul, ?_, ?_, by decide⟩
  · intro n
    constructor
    · rintro ⟨j, hj, -, h2⟩
      exact lt_of_lt_of_le h2 (rangeEnd_le workers hw j hj)
    · exact exists_range workers hw n
  · intro data d sched s h
    constructor
    · intro j nonce stop buf hwk hlt
      obtain ⟨-, -, hstop, -, hj, -⟩ := running_spec _ _ _ _ _ h _ _ _ _ hwk
      have := rangeEnd_le workers hw j hj
      subst hstop
      constructor <;> omega
    · intro n hn
      obtain ⟨j, hj, hf⟩ := got_FirstIn _ _ _ _ _ n h (returns_got s n hn)
      have := rangeEnd_le workers hw j hj
      have := hf.2.1
      constructor <;> omega

/-- Witness of C13: for three workers the ranges cover less than `MaxUint64` nonces. -/
theorem unscanned_tail_witness : (clampWorkers 3).toNat * delta 3 ≤ maxUint64 :=
  (unscanned_tail 3 (by decide)).1

/-- C14. The search loop and `Verify` never diverge: whenever a worker is at the head of
its loop, in any reachable state, its scratch buffer has length `len(data) + 8` and still
starts with the payload; the inline computation on that buffer yields the value of
`Difficulty(data, nonce)`; the test `value >= difficulty` holds exactly when `Verify` is
true; and the loop body moves the worker to its send exactly in that case and to the next
nonce otherwise. -/
theorem loop_agrees_with_Verify (data : List Nat) (d : Nat) (workers : Int)
    (sched : List Action) (s : State) (h : Generate data d workers sched = some s)
    (j nonce stop : Nat) (buf : List Nat)
    (hw : s.workers[j]? = some (Worker.running nonce stop buf)) :
    buf.length = data.length + 8 ∧ buf.take data.length = data ∧
    ∃ v, hashNonce buf data.length nonce = some (data ++ be64 nonce, v) ∧
      Difficulty data nonce = some v ∧
      (v ≥ d ↔ Verify data d nonce = some true) ∧
      (nonce < stop → s.done = false →
        step data d workers s (Action.worker j) =
          some (State.mk s.main
            (s.workers.set j (if Verify data d nonce = some true then Worker.sending nonce
              else Worker.running ((nonce + 1) % 2 ^ 64) stop (data ++ be64 nonce)))
            s.result s.done s.wg)) := by
  obtain ⟨h1, h2, -, -, -, hv⟩ := running_spec _ _ _ _ _ h _ _ _ _ hw
  have hiff : mappedValue data nonce ≥ d ↔ Verify data d nonce = some true := by
    simp [Verify_eq]
  refine ⟨h1, h2, mappedValue data nonce, hv, Difficulty_eq data nonce, hiff, ?_⟩
  intro hlt hdone
  simp only [step, stepWorker, hw, hlt, hdone, hv, if_true]
  by_cases hc : mappedValue data nonce ≥ d
  · simp [hc, hiff.1 hc]
  · have hV : ¬ Verify data d nonce = some true := fun hV => hc (hiff.2 hV)
    simp [hc, hV]

/-- Witness of C14: payload {1,2,3}, difficulty 0xb000000000000000, one worker: after two
failed tries the worker is at nonce 2 and its buffer, which holds the payload followed by
the bytes of nonce 1, still starts with the payload. -/
theorem loop_agrees_with_Verify_witness :
    ([1, 2, 3, 0, 0, 0, 0, 0, 0, 0, 1] : List Nat).take ([1, 2, 3] : List Nat).length =
      [1, 2, 3] :=
  (loop_agrees_with_Verify [1, 2, 3] 0xb000000000000000 1
    [Action.main, Action.worker 0, Action.worker 0]
    (State.mk (Main.spawning 1)
      [Worker.running 2 maxUint64 [1, 2, 3, 0, 0, 0, 0, 0, 0, 0, 1]] [] false 1)
    (by decide) 0 2 maxUint64 [1, 2, 3, 0, 0, 0, 0, 0, 0, 0, 1] (by decide)).2.1

/-- C15, amended. `Generate` is not a function of its inputs: every returned nonce is the
first valid nonce of the range of a worker; for a clamped worker count of at most `2^31 - 1`,
for which `make(chan uint64, workers-1)` and `wg.Add(workers)` do not panic, every first
valid nonce of a worker range is returned by some execution; for such a count and
difficulty 0 every range start `i * delta` with `i` below `W` is returned by some execution
and satisfies `Verify`; with at least two workers two executions return different nonces;
and for the empty payload and two workers the two schedules below return 0 and `delta`. -/
theorem Generate_not_deterministic (data : List Nat) (d : Nat) (workers : Int) :
    (∀ n, (∃ sched s, Generate data d workers sched = some s ∧ s.returns = some n) →
      ∃ j : Nat, (j : Int) < clampWorkers workers ∧ FirstIn data d workers j n) ∧
    (workers ≤ maxInt32 →
      ∀ n, (∃ sched s, Generate data d workers sched = some s ∧ s.returns = some n) ↔
        ∃ j : Nat, (j : Int) < clampWorkers workers ∧ FirstIn data d workers j n) ∧
    (workers ≤ maxInt32 → ∀ i : Nat, (i : Int) < clampWorkers workers →
      (∃ sched s, Generate data 0 workers sched = some s ∧
        s.returns = some (i * delta workers)) ∧
      Verify data 0 (i * delta workers) = some true) ∧
    (2 ≤ workers → workers ≤ maxInt32 →
      ∃ sched s sched' s', Generate data 0 workers sched = some s ∧ s.returns = some 0 ∧
        Generate data 0 workers sched' = some s' ∧ s'.returns = some (delta workers) ∧
        0 ≠ delta workers) ∧
    (Generate [] 0 2 [Action.main, Action.main, Action.main, Action.worker 0, Action.worker 0,
      Action.main, Action.worker 0, Action.worker 1, Action.worker 1, Action.main]).bind
        State.returns = some 0 ∧
    (Generate [] 0 2 [Action.main, Action.main, Action.main, Action.worker 1, Action.worker 1,
      Action.main, Action.worker 1, Action.worker 0, Action.worker 0, Action.main]).bind
        State.returns = some (delta 2) := by
  have hle : ∀ (w : Int), w ≤ maxInt32 → w ≤ maxInt := by
    intro w hw
    unfold maxInt32 at hw
    unfold maxInt
    omega
  have hzero : ∀ (w : Int), w ≤ maxInt32 → ∀ i : Nat, (i : Int) < clampWorkers w →
      (∃ sched s, Generate data 0 w sched = some s ∧ s.returns = some (i * delta w)) ∧
      Verify data 0 (i * delta w) = some true := by
    intro w hW i hi
    have hw := hle w hW
    have hv : ∀ k, Valid data 0 k := fun k => (Valid_iff _ _ _).2 (Nat.zero_le _)
    have hlt := rangeStart_lt_rangeEnd w hw i hi
    have hs := rangeStart_eq w hw i hi
    have hf : FirstIn data 0 w i (i * delta w) := by
      refine ⟨by omega, by omega, hv _, ?_⟩
      intro m h1 h2
      omega
    exact ⟨returns_of_FirstIn data 0 w hW i _ hi hf, hv _⟩
  have hfwd : ∀ n, (∃ sched s, Generate data d workers sched = some s ∧ s.returns = some n) →
      ∃ j : Nat, (j : Int) < clampWorkers workers ∧ FirstIn data d workers j n := by
    rintro n ⟨sched, s, h, hn⟩
    exact got_FirstIn _ _ _ _ _ n h (returns_got s n hn)
  refine ⟨hfwd, ?_, hzero workers, ?_, by decide, by decide⟩
  · intro hW n
    constructor
    · exact hfwd n
    · rintro ⟨j, hj, hf⟩
      exact returns_of_FirstIn data d workers hW j n hj hf
  · intro h2 hW
    have hw := hle workers hW
    have hc : clampWorkers workers = workers := by
      unfold clampWorkers
      split <;> omega
    obtain ⟨⟨sched, s, h, hn⟩, -⟩ := hzero workers hW 0 (by omega)
    obtain ⟨⟨sched', s', h', hn'⟩, -⟩ := hzero workers hW 1 (by omega)
    have hd := delta_ge workers hw
    refine ⟨sched, s, sched', s', h, by simpa using hn, h', by simpa using hn', by omega⟩

/-- Witness of C15: for the empty payload, difficulty 0 and two workers some execution
returns the start of the range of the second worker. -/
theorem Generate_not_deterministic_witness :
    ∃ sched s, Generate [] 0 2 sched = some s ∧ s.returns = some (1 * delta 2) :=
  ((Generate_not_deterministic [] 0 2).2.2.1 (by decide) 1 (by decide)).1

/-- Counterexample to C15 as stated (every `W >= 2`): for the empty payload, difficulty 0 and
`2^45 + 1` workers, a count in the range of `int`, the range start 0 of worker 0 is the first
valid nonce of its range and satisfies `Verify`, but `make(chan uint64, workers-1)` panics,
so no execution of `Generate` returns it. -/
theorem Generate_not_deterministic_counterexample :
    ((2 : Int) ≤ 2 ^ 45 + 1) ∧ ((2 ^ 45 + 1 : Int) ≤ maxInt) ∧
    0 * delta (2 ^ 45 + 1) = rangeStart (2 ^ 45 + 1) 0 ∧
    FirstIn [] 0 (2 ^ 45 + 1) 0 (0 * delta (2 ^ 45 + 1)) ∧
    makeChan (clampWorkers (2 ^ 45 + 1) - 1) = none ∧
    ¬ ∃ sched s, Generate [] 0 (2 ^ 45 + 1) sched = some s ∧
      s.returns = some (0 * delta (2 ^ 45 + 1)) := by
  have hf : FirstIn [] 0 (2 ^ 45 + 1) 0 (0 * delta (2 ^ 45 + 1)) := by
    refine ⟨by decide, by decide, (Valid_iff _ _ _).2 (Nat.zero_le _), ?_⟩
    intro m _ hm
    omega
  refine ⟨by decide, by decide, by decide, hf, by decide, ?_⟩
  rintro ⟨sched, s, h, -⟩
  have hset := (Generate_run _ _ _ _ _ h).1
  have hnone : setup (2 ^ 45 + 1) = none := by decide
  rw [hnone] at hset
  cases hset

/-- C16. Each worker reports the least qualifying nonce of its range: for a worker count in
the range of `int`, a returned nonce `n` lies in the range `[i * delta, i * delta + delta)`
of some worker `i` below `W`, has a difficulty of at least `d`, and every nonce of that
range below `n` has a difficulty below `d`; with one worker `n` is the smallest nonce of
`[0, MaxUint64)` with a difficulty of at least `d`. -/
theorem returns_least (data : List Nat) (d : Nat) (workers : Int) (hw : workers ≤ maxInt)
    (sched : List Action) (s : State) (n : Nat)
    (h : Generate data d workers sched = some s) (hn : s.returns = some n) :
    (∃ i : Nat, (i : Int) < clampWorkers workers ∧ i * delta workers ≤ n ∧
      n < i * delta workers + delta workers ∧
      (∃ v, Difficulty data n = some v ∧ d ≤ v) ∧
      ∀ m, i * delta workers ≤ m → m < n → ∃ u, Difficulty data m = some u ∧ u < d) ∧
    (clampWorkers workers = 1 → n < maxUint64 ∧ (∃ v, Difficulty data n = some v ∧ d ≤ v) ∧
      ∀ m, m < n → ∃ u, Difficulty data m = some u ∧ u < d) := by
  obtain ⟨i, hi, h1, h2, h3, h4⟩ := got_FirstIn _ _ _ _ _ n h (returns_got s n hn)
  rw [rangeStart_eq workers hw i hi] at h1 h4
  rw [rangeEnd_eq workers hw i hi] at h2
  have hv := (Valid_iff_Difficulty data d n).1 h3
  have hlow : ∀ m, i * delta workers ≤ m → m < n → ∃ u, Difficulty data m = some u ∧ u < d := by
    intro m hm1 hm2
    have := h4 m hm1 hm2
    rw [Valid_iff] at this
    exact ⟨mappedValue data m, Difficulty_eq data m, by omega⟩
  refine ⟨⟨i, hi, h1, h2, hv, hlow⟩, ?_⟩
  intro hc
  have hi0 : i = 0 := by omega
  subst hi0
  have hdl : delta workers = maxUint64 := by
    rw [delta_eq workers hw, hc]
    decide
  rw [hdl] at h2
  refine ⟨by omega, hv, ?_⟩
  intro m hm
  exact hlow m (by omega) hm

/-- Witness of C16: payload {1,2,3}, difficulty 2^63, one worker: the returned nonce 1 has a
sufficient difficulty. -/
theorem returns_least_witness : ∃ v, Difficulty [1, 2, 3] 1 = some v ∧ 2 ^ 63 ≤ v :=
  ((returns_least [1, 2, 3] (2 ^ 63) 1 (by decide)
    [Action.main, Action.main, Action.worker 0, Action.worker 0, Action.worker 0,
      Action.main, Action.worker 0, Action.main]
    (State.mk (Main.returned 1) [Worker.exited] [] true 0) 1 (by decide) rfl).2
      (by decide)).2.1

/-- C17. Partition arithmetic is safe and exact: for every worker count in the range of
`int`, the clamped count `W` satisfies `1 ≤ W ≤ 2^63 - 1`, the divisor `uint64(W)` is not
zero, the channel capacity `W - 1` is not negative, `delta ≥ 2`, and for every `i` below `W`
the products and sums do not exceed `MaxUint64`, so that `start = i * delta` and
`end = start + delta` exactly, and `start < end`. -/
theorem partition_exact (workers : Int) (hw : workers ≤ maxInt) :
    1 ≤ clampWorkers workers ∧ clampWorkers workers ≤ 2 ^ 63 - 1 ∧
    (clampWorkers workers).toNat % 2 ^ 64 ≠ 0 ∧
    0 ≤ clampWorkers workers - 1 ∧
    delta workers = maxUint64 / (clampWorkers workers).toNat ∧
    2 ≤ delta workers ∧
    ∀ i : Nat, (i : Int) < clampWorkers workers →
      i % 2 ^ 64 = i ∧ i * delta workers ≤ maxUint64 ∧
      rangeStart workers i = i * delta workers ∧
      i * delta workers + delta workers ≤ maxUint64 ∧
      rangeEnd workers i = rangeStart workers i + delta workers ∧
      rangeStart workers i < rangeEnd workers i := by
  have h1 := clampWorkers_pos workers
  have h2 := clampWorkers_le workers hw
  have h3 := delta_ge workers hw
  unfold maxInt at h2
  refine ⟨h1, h2, ?_, by omega, delta_eq workers hw, h3, ?_⟩
  · rw [Nat.mod_eq_of_lt (by omega)]
    omega
  · intro i hi
    have hs := rangeStart_eq workers hw i hi
    have he := rangeEnd_eq workers hw i hi
    have hle := rangeEnd_le workers hw i hi
    have hmul := mul_delta_le workers hw
    rw [he] at hle
    refine ⟨Nat.mod_eq_of_lt (by omega), by omega, hs, by omega, ?_, ?_⟩
    · rw [he, hs]
    · rw [he, hs]; omega

/-- Witness of C17: for three workers `delta` is at least two. -/
theorem partition_exact_witness : 2 ≤ delta 3 :=
  (partition_exact 3 (by decide)).2.2.2.2.2.1

/-- C18. The hash-input encoding is unambiguous: the buffer `Difficulty` hashes is the
payload followed by the eight bytes of the nonce, which are its last eight bytes, and for
64-bit nonces equal buffers come from equal payloads and equal nonces. -/
theorem encoding_injective (p p' : List Nat) (n n' : Nat) (hn : n < 2 ^ 64)
    (hn' : n' < 2 ^ 64) :
    (hashNonce (copy (make (p.length + 8)) p) p.length n).map Prod.fst =
      some (p ++ be64 n) ∧
    (p ++ be64 n).drop p.length = be64 n ∧ (be64 n).length = 8 ∧
    (p ++ be64 n = p' ++ be64 n' → p = p' ∧ n = n') ∧
    ((hashNonce (copy (make (p.length + 8)) p) p.length n).map Prod.fst =
        (hashNonce (copy (make (p'.length + 8)) p') p'.length n').map Prod.fst →
      p = p' ∧ n = n') := by
  have hbuf : ∀ (q : List Nat) (k : Nat),
      (hashNonce (copy (make (q.length + 8)) q) q.length k).map Prod.fst =
        some (q ++ be64 k) := by
    intro q k
    rw [hashNonce_value q _ k (by simp [copy_make]) (by simp [copy_make])]
    rfl
  have hinj : p ++ be64 n = p' ++ be64 n' → p = p' ∧ n = n' := by
    intro h
    have hl := congrArg List.length h
    simp only [List.length_append, be64_length] at hl
    obtain ⟨h1, h2⟩ := List.append_inj h (by omega)
    exact ⟨h1, be64_inj n n' hn hn' h2⟩
  refine ⟨hbuf p n, by simp, rfl, hinj, ?_⟩
  intro h
  rw [hbuf p n, hbuf p' n'] at h
  exact hinj (Option.some.inj h)

/-- Witness of C18: the buffer `Difficulty` builds for payload {1} and nonce 2. -/
theorem encoding_injective_witness :
    (hashNonce (copy (make (([1] : List Nat).length + 8)) [1]) ([1] : List Nat).length 2).map
      Prod.fst = some ([1] ++ be64 2) :=
  (encoding_injective [1] [1, 0] 2 2 (by decide) (by decide)).1

end Work
